import Mathlib

/-!
# rollup-plugin-copy: copy-target resolution and execution

A shallow embedding of `src/dist/index.commonjs.js` (the ES-module build
`src/dist/index.module.js` has the same function bodies).  The plugin's
collaborators (`globby`, `fs-extra`, Node's `path` and `util.inspect`) are
parameters of the model (`Env`); every call to a collaborator with an
observable effect is recorded in a trace of `Event`s.  The object
`restPluginOptions` is handed by reference to `fs.copy` and `fs.outputFile`,
which may write into it: its content is part of the state of the plugin
instance (`HookState`).
-/

namespace RollupCopy

/-! ## JavaScript values -/

/-- Non-array JavaScript values as far as the plugin observes them.  Numbers
are restricted to integer values and `NaN`; only their truthiness is read.
`object` stands for any other non-callable object, known by its printed form. -/
inductive Prim where
  | undefined
  | null
  | bool (b : Bool)
  | num (n : Int)
  | nan
  | str (s : String)
  | buffer (bytes : List UInt8)
  | object (shown : String)
  deriving DecidableEq, Repr

/-- A JavaScript value that is not callable: a primitive or object, or an
array of such values. -/
inductive JsVal where
  | prim (p : Prim)
  | arr (xs : List Prim)
  deriving DecidableEq, Repr

/-- JavaScript truthiness (`ToBoolean`). -/
def Prim.truthy : Prim → Bool
  | .undefined => false
  | .null => false
  | .bool b => b
  | .num n => decide (n ≠ 0)
  | .nan => false
  | .str s => decide (s ≠ "")
  | .buffer _ => true
  | .object _ => true

/-- JavaScript truthiness (`ToBoolean`); every array is truthy. -/
def JsVal.truthy : JsVal → Bool
  | .prim p => p.truthy
  | .arr _ => true

/-- The test `typeof v === 'string'`. -/
def JsVal.isString : JsVal → Bool
  | .prim (.str _) => true
  | _ => false

/-- The test `v === null`: `contents` starts as `null` in `generateCopyTarget`. -/
def JsVal.isNull : JsVal → Bool
  | .prim .null => true
  | _ => false

/-- A property that may hold a function: either a non-callable value
(`undefined` when the property is absent) or a callable of type `φ`. -/
inductive Field (φ : Type) where
  | value (v : JsVal)
  | func (f : φ)

/-- Truthiness of a property; functions are truthy. -/
def Field.truthy {φ : Type} : Field φ → Bool
  | .value v => v.truthy
  | .func _ => true

/-- The test `typeof x === 'string'`. -/
def Field.isString {φ : Type} : Field φ → Bool
  | .value v => v.isString
  | .func _ => false

/-- The test `typeof x === 'function'`. -/
def Field.isFunction {φ : Type} : Field φ → Bool
  | .value _ => false
  | .func _ => true

/-! ## Option bags and object spread -/

/-- An options object: its own enumerable keys in insertion order. -/
abbrev Options := List (String × JsVal)

/-- Assignment `o[k] = v`: an existing key keeps its position, a new key is
appended. -/
def setKey : Options → String → JsVal → Options
  | [], k, v => [(k, v)]
  | (k', v') :: rest, k, v =>
    if k' = k then (k', v) :: rest else (k', v') :: setKey rest k v

/-- Object spread: the object literal with `...extra` written after the
entries of `base`, so `extra` wins on a key collision. -/
def spread (base extra : Options) : Options :=
  extra.foldl (fun acc kv => setKey acc kv.1 kv.2) base

/-- Property read `o[k]`. -/
def getKey (o : Options) (k : String) : Option JsVal :=
  (o.find? (fun kv => kv.1 = k)).map (fun kv => kv.2)

/-! ## Node's `path` module -/

/-- The two fields of `path.parse(p)` that `renameTarget` reads. -/
structure ParsedPath where
  name : String
  ext : String
  deriving DecidableEq, Repr

/-- The functions of Node's `path` module that the plugin calls, on string
arguments. -/
structure PathLib where
  basename : String → String
  join : String → String → String
  parse : String → ParsedPath

/-- JavaScript `s.replace('.', '')`: delete the first `.` of `s`, if any. -/
def removeFirstDot : List Char → List Char
  | [] => []
  | c :: cs => if c = '.' then cs else c :: removeFirstDot cs

/-- JavaScript `ext.replace('.', '')` on strings. -/
def replaceDot (ext : String) : String := String.mk (removeFirstDot ext.data)

/-- An extension without its leading dot (the empty extension stays empty). -/
def stripLeadingDot (ext : String) : String :=
  match ext.data with
  | '.' :: rest => String.mk rest
  | other => String.mk other

namespace Posix

/-- Split a path at every `/`; the result is never empty. -/
def segments : List Char → List (List Char)
  | [] => [[]]
  | c :: cs =>
    if c = '/' then [] :: segments cs
    else match segments cs with
      | [] => [[c]]
      | s :: ss => (c :: s) :: ss

/-- One step of `normalizeString`: the stack holds the kept segments, last
one first. -/
def pushSegment (allowAboveRoot : Bool) (stack : List (List Char)) (seg : List Char) :
    List (List Char) :=
  if seg = [] ∨ seg = ['.'] then stack
  else if seg = ['.', '.'] then
    match stack with
    | [] => if allowAboveRoot then [seg] else []
    | top :: rest =>
      if top = ['.', '.'] then (if allowAboveRoot then seg :: stack else stack) else rest
  else seg :: stack

/-- Node's `normalizeString(path, allowAboveRoot)`: the kept segments in
order. -/
def normalizeSegments (allowAboveRoot : Bool) (path : List Char) : List (List Char) :=
  ((segments path).foldl (pushSegment allowAboveRoot) []).reverse

/-- Join segments with `/`. -/
def joinSegments : List (List Char) → List Char
  | [] => []
  | [s] => s
  | s :: rest => s ++ '/' :: joinSegments rest

/-- Node's `path.posix.normalize`. -/
def normalize (path : List Char) : List Char :=
  if path = [] then ['.']
  else
    let isAbsolute := path.head? = some '/'
    let trailingSeparator := path.getLast? = some '/'
    let body := joinSegments (normalizeSegments (!isAbsolute) path)
    if body = [] then
      if isAbsolute then ['/'] else if trailingSeparator then ['.', '/'] else ['.']
    else
      let body := if trailingSeparator then body ++ ['/'] else body
      if isAbsolute then '/' :: body else body

/-- Node's `path.posix.join(a, b)` on two strings. -/
def join (a b : List Char) : List Char :=
  if a = [] then (if b = [] then ['.'] else normalize b)
  else if b = [] then normalize a
  else normalize (a ++ '/' :: b)

/-- Node's `path.posix.basename(path)`: the last segment, trailing slashes
ignored. -/
def basename (path : List Char) : List Char :=
  ((path.reverse.dropWhile (fun c => c = '/')).takeWhile (fun c => c ≠ '/')).reverse

/-- Split a base name into `name` and `ext` as `path.posix.parse` does.
`dotDot` tells whether the base `..` counts as extension-less (Node compares
the position of the dot with the start of the last part). -/
def splitExt (dotDot : Bool) (base : List Char) : List Char × List Char :=
  let rev := base.reverse
  let post := (rev.takeWhile (fun c => c ≠ '.')).reverse
  match rev.dropWhile (fun c => c ≠ '.') with
  | [] => (base, [])
  | _ :: preRev =>
    let pre := preRev.reverse
    if pre = [] then (base, [])
    else if dotDot ∧ pre = ['.'] ∧ post = [] then (base, [])
    else (pre, '.' :: post)

/-- Node's `path.posix.parse(path)`, fields `name` and `ext`. -/
def parse (path : List Char) : List Char × List Char :=
  match path with
  | '/' :: rest =>
    let body := (rest.reverse.dropWhile (fun c => c = '/')).reverse
    splitExt (decide ('/' ∈ body)) (basename rest)
  | _ => splitExt true (basename path)

end Posix

/-- Node's `path.posix`, as a `PathLib`. -/
def posix : PathLib where
  basename p := String.mk (Posix.basename p.data)
  join a b := String.mk (Posix.join a.data b.data)
  parse p := { name := String.mk (Posix.parse p.data).1, ext := String.mk (Posix.parse p.data).2 }

/-! ## Descriptors, configuration, collaborators -/

/-- A user-supplied `rename` function `(name, ext) => ...`; it may throw and
may return any value. -/
abbrev RenameFn := String → String → Except String JsVal

/-- A user-supplied `transform` function on a file's bytes; it may throw and
may return any value. -/
abbrev TransformFn := List UInt8 → Except String JsVal

/-- A plain object listed in `targets`, after the destructuring
`const { src, dest, rename, transform, ...restTargetOptions } = target`.
A missing property reads as `undefined`. -/
structure Descriptor where
  src : JsVal := .prim .undefined
  dest : JsVal := .prim .undefined
  rename : Field RenameFn := .value (.prim .undefined)
  transform : Field TransformFn := .value (.prim .undefined)
  rest : Options := []

/-- An element of the `targets` array: a plain object (`isObject(target)`
holds) or any other value, known by its printed form. -/
inductive Target where
  | plain (d : Descriptor)
  | other (shown : String)

/-- The plugin options after the destructuring at the top of `copy`;
`rest` is `restPluginOptions`. -/
structure Config where
  copyOnce : Bool := false
  hook : String := "buildEnd"
  targets : List Target := []
  verbose : Bool := false
  rest : Options := []

/-- What `fs.lstatSync(p)` reports about a path. -/
inductive FileKind where
  | file
  | directory
  | symlink
  | other
  deriving DecidableEq, Repr

/-- The method `stats.isDirectory()`. -/
def FileKind.isDirectory : FileKind → Bool
  | .directory => true
  | _ => false

/-- The collaborators of one hook invocation: the `path` library,
`util.inspect`, `globby` and the `fs-extra` calls, each a function of its
arguments over the filesystem as it stands during the invocation.  A
collaborator that throws or rejects returns `.error`.  `fs.copy` and
`fs.outputFile` receive the options object itself, not a copy of it, and may
write into it: they also return the content of that object after the call. -/
structure Env where
  path : PathLib
  inspect : Target → String
  globby : JsVal → Options → Except String (List String)
  lstat : String → Except String FileKind
  readFile : String → Except String (List UInt8)
  copy : String → String → Options → Options × Except String Unit
  outputFile : String → JsVal → Options → Options × Except String Unit

/-- What an invocation can throw: a configuration error raised by the
validation in `copy`, a `TypeError` raised by the runtime or by `path.join`
on a non-string, or whatever a collaborator or user function throws. -/
inductive Err where
  | config (msg : String)
  | type (msg : String)
  | thrown (msg : String)
  deriving DecidableEq, Repr

/-- The test "is a configuration error". -/
def Err.isConfig : Err → Bool
  | .config _ => true
  | _ => false

/-- Lines written with `console.log` (colours dropped). -/
inductive LogLine where
  | transformOnDirectory (src : String)
  | copiedHeader
  | copiedItem (src dest : String) (transformed : Bool)
  | noItems
  deriving DecidableEq, Repr

/-- Observable calls made by a hook invocation, in order. -/
inductive Event where
  | globby (patterns : JsVal) (options : Options)
  | lstat (path : String)
  | readFile (path : String)
  | log (line : LogLine)
  | copy (src dest : String) (options : Options)
  | outputFile (dest : String) (contents : JsVal) (options : Options)
  deriving DecidableEq, Repr

/-- The test "is a call of `globby`". -/
def Event.isGlob : Event → Bool
  | .globby _ _ => true
  | _ => false

/-- The test "reads the filesystem" (`lstatSync`, `readFileSync`). -/
def Event.isRead : Event → Bool
  | .lstat _ => true
  | .readFile _ => true
  | _ => false

/-- The test "is a call of `fs.copy` or `fs.outputFile`". -/
def Event.isWrite : Event → Bool
  | .copy _ _ _ => true
  | .outputFile _ _ _ => true
  | _ => false

/-- A computation that records events and may throw: the events recorded
up to the throw are kept. -/
structure Eff (α : Type) where
  trace : List Event
  result : Except Err α

namespace Eff

/-- Return a value without any effect. -/
def ret {α : Type} (a : α) : Eff α := ⟨[], .ok a⟩

/-- Sequencing: the second computation runs only if the first one did not
throw. -/
def andThen {α β : Type} (x : Eff α) (f : α → Eff β) : Eff β :=
  match x.result with
  | .error e => ⟨x.trace, .error e⟩
  | .ok a => ⟨x.trace ++ (f a).trace, (f a).result⟩

/-- The statement `throw e`. -/
def fail {α : Type} (e : Err) : Eff α := ⟨[], .error e⟩

/-- An effect-free step that may throw. -/
def lift {α : Type} (r : Except Err α) : Eff α := ⟨[], r⟩

/-- A call to a collaborator: the call is recorded, its failure is thrown. -/
def call {α : Type} (ev : Event) (r : Except String α) : Eff α :=
  ⟨[ev], r.mapError Err.thrown⟩

/-- A call of `console.log`. -/
def emit (line : LogLine) : Eff Unit := ⟨[.log line], .ok ()⟩

end Eff

instance : Monad Eff where
  pure := Eff.ret
  bind := Eff.andThen

/-! ## The plugin -/

/-- The helper `stringify(value)`: `util.inspect`. -/
def stringify (env : Env) (value : Target) : String := env.inspect value

/-- Calling `rename(name, ext)`: a `TypeError` when `rename` is not callable. -/
def callRename (rename : Field RenameFn) (name ext : String) : Except Err JsVal :=
  match rename with
  | .func f => (f name ext).mapError Err.thrown
  | .value _ => .error (.type "rename is not a function")

/-- The function `renameTarget(target, rename)`. -/
def renameTarget (env : Env) (target : String) (rename : Field RenameFn) : Except Err JsVal :=
  let parsedPath := env.path.parse target
  match rename with
  | .value (.prim (.str s)) => .ok (.prim (.str s))
  | _ => callRename rename parsedPath.name (replaceDot parsedPath.ext)

/-- The call `path.join(a, b)`: Node throws a `TypeError` unless both
arguments are strings. -/
def pathJoin (env : Env) (a b : JsVal) : Except Err String :=
  match a, b with
  | .prim (.str x), .prim (.str y) => .ok (env.path.join x y)
  | _, _ => .error (.type "The \"path\" argument must be of type string")

/-- Calling `transform(data)`: a `TypeError` when `transform` is not
callable. -/
def callTransform (transform : Field TransformFn) (data : List UInt8) : Except Err JsVal :=
  match transform with
  | .func f => (f data).mapError Err.thrown
  | .value _ => .error (.type "transform is not a function")

/-- One resolved operation: the object `{ src, dest, contents }`. -/
structure CopyTarget where
  src : String
  dest : String
  contents : JsVal
  deriving DecidableEq, Repr

/-- The block `if (transform) { ... }` of `generateCopyTarget`, giving the
final value of `contents`. -/
def transformContents (env : Env) (src : String) (transform : Field TransformFn) : Eff JsVal :=
  if transform.truthy then do
    let stats ← Eff.call (.lstat src) (env.lstat src)
    if !stats.isDirectory then do
      let data ← Eff.call (.readFile src) (env.readFile src)
      Eff.lift (callTransform transform data)
    else do
      Eff.emit (.transformOnDirectory src)
      pure (.prim .null)
  else pure (.prim .null)

/-- The argument `rename ? renameTarget(basename, rename) : basename`. -/
def finalName (env : Env) (basename : String) (rename : Field RenameFn) : Except Err JsVal :=
  if rename.truthy then renameTarget env basename rename else .ok (.prim (.str basename))

/-- The function `generateCopyTarget(src, dest, rename, transform)`. -/
def generateCopyTarget (env : Env) (src : String) (dest : JsVal)
    (rename : Field RenameFn) (transform : Field TransformFn) : Eff CopyTarget := do
  let basename := env.path.basename src
  let contents ← transformContents env src transform
  let name ← Eff.lift (finalName env basename rename)
  let dest ← Eff.lift (pathJoin env dest name)
  pure { src := src, dest := dest, contents := contents }

/-- The call `dest.map(destination => generateCopyTarget(...))`. -/
def mapDestinations (env : Env) (matchedPath : String) (rename : Field RenameFn)
    (transform : Field TransformFn) : List Prim → Eff (List CopyTarget)
  | [] => pure []
  | destination :: more => do
    let t ← generateCopyTarget env matchedPath (.prim destination) rename transform
    let ts ← mapDestinations env matchedPath rename transform more
    pure (t :: ts)

/-- The value `generatedCopyTargets` for one matched path:
`Array.isArray(dest) ? dest.map(...) : [generateCopyTarget(...)]`. -/
def generatedCopyTargets (env : Env) (matchedPath : String) (d : Descriptor) :
    Eff (List CopyTarget) :=
  match d.dest with
  | .arr xs => mapDestinations env matchedPath d.rename d.transform xs
  | dest => do
    let t ← generateCopyTarget env matchedPath dest d.rename d.transform
    pure [t]

/-- The loop `matchedPaths.forEach(...)`, pushing onto `copyTargets`. -/
def forEachMatched (env : Env) (d : Descriptor) :
    List String → List CopyTarget → Eff (List CopyTarget)
  | [], copyTargets => pure copyTargets
  | matchedPath :: more, copyTargets => do
    let generated ← generatedCopyTargets env matchedPath d
    forEachMatched env d more (copyTargets ++ generated)

/-- The options object passed to `globby`, a fresh object literal; `rest` is
the content of `restPluginOptions` when the literal is evaluated. -/
def globOptions (rest : Options) (d : Descriptor) : Options :=
  spread (spread [("expandDirectories", .prim (.bool false)), ("onlyFiles", .prim (.bool false))]
    rest) d.rest

/-- The loop `for (const target of targets)` of the hook, pushing onto
`copyTargets`: the three validation checks, the `globby` call, the
`forEach`.  `rest` is the content of `restPluginOptions`, which nothing in
the loop writes. -/
def resolveTargets (rest : Options) (env : Env) :
    List Target → List CopyTarget → Eff (List CopyTarget)
  | [], copyTargets => pure copyTargets
  | target :: more, copyTargets =>
    match target with
    | .other _ => Eff.fail (.config (stringify env target ++ " target must be an object"))
    | .plain d =>
      if !d.src.truthy || !d.dest.truthy then
        Eff.fail (.config
          (stringify env target ++ " target must have \"src\" and \"dest\" properties"))
      else if d.rename.truthy && !d.rename.isString && !d.rename.isFunction then
        Eff.fail (.config (stringify env target
          ++ " target\x27s \"rename\" property must be a string or a function"))
      else do
        let matchedPaths ← Eff.call (.globby d.src (globOptions rest d))
          (env.globby d.src (globOptions rest d))
        let copyTargets ← forEachMatched env d matchedPaths copyTargets
        resolveTargets rest env more copyTargets

/-- What the executor did: the calls it made, whether it threw, and the
content of `restPluginOptions` afterwards. -/
structure Exec where
  trace : List Event
  result : Except Err Unit
  rest : Options

/-- The statement
`if (contents) await fs.outputFile(dest, contents, restPluginOptions)
else await fs.copy(src, dest, restPluginOptions)`: the call recorded, the
content of `restPluginOptions` after it, and whether it failed. -/
def writeCall (env : Env) (rest : Options) (t : CopyTarget) :
    Event × Options × Except String Unit :=
  if t.contents.truthy then
    (.outputFile t.dest t.contents rest, env.outputFile t.dest t.contents rest)
  else
    (.copy t.src t.dest rest, env.copy t.src t.dest rest)

/-- One iteration of the loop `for (const { src, dest, contents } of copyTargets)`. -/
def executeOne (cfg : Config) (env : Env) (rest : Options) (t : CopyTarget) : Exec :=
  match (writeCall env rest t).2.2 with
  | .error m =>
    { trace := [(writeCall env rest t).1]
      result := .error (.thrown m)
      rest := (writeCall env rest t).2.1 }
  | .ok _ =>
    { trace := (writeCall env rest t).1 ::
        (if cfg.verbose then [.log (.copiedItem t.src t.dest t.contents.truthy)] else [])
      result := .ok ()
      rest := (writeCall env rest t).2.1 }

/-- The loop `for (const { src, dest, contents } of copyTargets)`. -/
def executeAll (cfg : Config) (env : Env) : Options → List CopyTarget → Exec
  | rest, [] => { trace := [], result := .ok (), rest := rest }
  | rest, t :: more =>
    match (executeOne cfg env rest t).result with
    | .error e =>
      { trace := (executeOne cfg env rest t).trace
        result := .error e
        rest := (executeOne cfg env rest t).rest }
    | .ok _ =>
      { trace := (executeOne cfg env rest t).trace
          ++ (executeAll cfg env (executeOne cfg env rest t).rest more).trace
        result := (executeAll cfg env (executeOne cfg env rest t).rest more).result
        rest := (executeAll cfg env (executeOne cfg env rest t).rest more).rest }

/-- The statement `if (copyTargets.length) { ... } else if (verbose) { ... }`. -/
def execute (cfg : Config) (env : Env) (rest : Options) (copyTargets : List CopyTarget) :
    Exec :=
  if copyTargets.length ≠ 0 then
    { trace := (if cfg.verbose then [.log .copiedHeader] else [])
        ++ (executeAll cfg env rest copyTargets).trace
      result := (executeAll cfg env rest copyTargets).result
      rest := (executeAll cfg env rest copyTargets).rest }
  else
    { trace := if cfg.verbose then [.log .noItems] else []
      result := .ok ()
      rest := rest }

/-- The body of the hook after the `copyOnce` guard, up to but excluding
`copied = true`; `rest` is the content of `restPluginOptions` when the body
starts. -/
def hookBody (cfg : Config) (env : Env) (rest : Options) : Exec :=
  match (resolveTargets rest env cfg.targets []).result with
  | .error e =>
    { trace := (resolveTargets rest env cfg.targets []).trace
      result := .error e
      rest := rest }
  | .ok copyTargets =>
    { trace := (resolveTargets rest env cfg.targets []).trace
        ++ (execute cfg env rest copyTargets).trace
      result := (execute cfg env rest copyTargets).result
      rest := (execute cfg env rest copyTargets).rest }

/-- The mutable state of a plugin instance: the closure variable `copied`
and the content of the object `restPluginOptions`. -/
structure HookState where
  copied : Bool
  rest : Options
  deriving DecidableEq, Repr

/-- The state of a freshly created plugin: `let copied = false`, and
`restPluginOptions` as destructured from the plugin options. -/
def HookState.initial (cfg : Config) : HookState := { copied := false, rest := cfg.rest }

/-- What one hook invocation did: the calls it made, whether it threw, and
the state of the plugin instance afterwards. -/
structure Outcome where
  trace : List Event
  result : Except Err Unit
  state : HookState

/-- The hook function `async () => { ... }` registered under `cfg.hook`. -/
def hook (cfg : Config) (env : Env) (st : HookState) : Outcome :=
  if cfg.copyOnce && st.copied then
    { trace := [], result := .ok (), state := st }
  else
    match (hookBody cfg env st.rest).result with
    | .error e =>
      { trace := (hookBody cfg env st.rest).trace
        result := .error e
        state := { copied := st.copied, rest := (hookBody cfg env st.rest).rest } }
    | .ok _ =>
      { trace := (hookBody cfg env st.rest).trace
        result := .ok ()
        state := { copied := true, rest := (hookBody cfg env st.rest).rest } }

/-- Successive invocations of the hook of one plugin instance, each against
the filesystem of its moment. -/
def invokeAll (cfg : Config) : HookState → List Env → List Outcome
  | _, [] => []
  | st, env :: later => hook cfg env st :: invokeAll cfg (hook cfg env st).state later

/-! ## Reference definitions used to state the properties -/

/-- The destination of the operation resolved for a matched path and one
destination directory: the final name joined onto the directory. -/
def destinationPath (env : Env) (matchedPath : String) (dest : JsVal)
    (rename : Field RenameFn) : Except Err String :=
  match finalName env (env.path.basename matchedPath) rename with
  | .error e => .error e
  | .ok name => pathJoin env dest name

/-- The destination directories a `dest` property stands for: the elements
of an array, or the single value. -/
def destinationList : JsVal → List JsVal
  | .arr xs => xs.map JsVal.prim
  | dest => [dest]

/-- The paths `globby` returns for a descriptor (none when it fails); `rest`
is the content of `restPluginOptions` at the call. -/
def matchedPaths (rest : Options) (env : Env) (d : Descriptor) : List String :=
  match env.globby d.src (globOptions rest d) with
  | .ok paths => paths
  | .error _ => []

/-- The (descriptor, matched path, destination directory) triples of one
descriptor: matched-path order first, destination-list order second. -/
def descriptorTriples (rest : Options) (env : Env) (d : Descriptor) :
    List (Descriptor × String × JsVal) :=
  (matchedPaths rest env d).flatMap fun p => (destinationList d.dest).map fun dst => (d, p, dst)

/-- The plain objects among the targets, in order. -/
def descriptors : List Target → List Descriptor
  | [] => []
  | .plain d :: more => d :: descriptors more
  | .other _ :: more => descriptors more

/-- All triples of a target list, descriptor order first. -/
def allTriples (rest : Options) (env : Env) (targets : List Target) :
    List (Descriptor × String × JsVal) :=
  (descriptors targets).flatMap (descriptorTriples rest env)

/-- The operation resolved for a triple is `op`. -/
def ResolvesTo (env : Env) (triple : Descriptor × String × JsVal) (op : CopyTarget) : Prop :=
  (generateCopyTarget env triple.2.1 triple.2.2 triple.1.rename triple.1.transform).result = .ok op

/-- The collaborator call that executes an operation when the content of
`restPluginOptions` is `rest`. -/
def writeEvent (rest : Options) (op : CopyTarget) : Event :=
  if op.contents.truthy then .outputFile op.dest op.contents rest
  else .copy op.src op.dest rest

/-- The content of `restPluginOptions` after the call that executes an
operation. -/
def restAfter (env : Env) (rest : Options) (op : CopyTarget) : Options :=
  if op.contents.truthy then (env.outputFile op.dest op.contents rest).1
  else (env.copy op.src op.dest rest).1

/-- The collaborator calls that execute a list of operations in order, each
receiving `restPluginOptions` as the calls before it left it. -/
def writeEvents (env : Env) : Options → List CopyTarget → List Event
  | _, [] => []
  | rest, op :: more => writeEvent rest op :: writeEvents env (restAfter env rest op) more

/-- The options argument of a `fs.copy` or `fs.outputFile` call. -/
def Event.writeOptions : Event → Option Options
  | .copy _ _ o => some o
  | .outputFile _ _ o => some o
  | _ => none

/-- The content of the options object of a `fs.copy` or `fs.outputFile` call
after that call. -/
def Event.optionsAfter (env : Env) : Event → Option Options
  | .copy src dest o => some (env.copy src dest o).1
  | .outputFile dest contents o => some (env.outputFile dest contents o).1
  | _ => none

/-- A list of `fs.copy` and `fs.outputFile` calls passes one options object
along: the first call receives the content `start`, every later call the
content the call before it left, and the last call leaves `final`. -/
def OptionsChain (env : Env) : Options → List Event → Options → Prop
  | start, [], final => final = start
  | start, ev :: more, final =>
    ev.writeOptions = some start ∧
      ∃ next, ev.optionsAfter env = some next ∧ OptionsChain env next more final

/-- A target the validation at the top of the loop body rejects: it is not a
plain object, or `!src || !dest` holds, or
`rename && typeof rename !== 'string' && typeof rename !== 'function'` holds. -/
def invalid : Target → Bool
  | .other _ => true
  | .plain d =>
    (!d.src.truthy || !d.dest.truthy) ||
      (d.rename.truthy && !d.rename.isString && !d.rename.isFunction)

/-- The `globby` call made for a descriptor when the content of
`restPluginOptions` is `rest`. -/
def globEvent (rest : Options) (d : Descriptor) : Event :=
  .globby d.src (globOptions rest d)

/-- A target that is invalid in the words of the specification: not a plain
object, or `src` or `dest` missing or not truthy, or `rename` present and
neither a string nor a callable. -/
def SpecInvalid : Target → Prop
  | .other _ => True
  | .plain d =>
    d.src.truthy = false ∨ d.dest.truthy = false ∨
      (d.rename ≠ .value (.prim .undefined) ∧ d.rename.isString = false ∧
        d.rename.isFunction = false)

/-- An extension as Node reports it: empty, or beginning with a dot. -/
def ExtShape (ext : String) : Prop := ext.data = [] ∨ ∃ rest, ext.data = '.' :: rest

/-- A plain file name: not empty, without `/`, and neither `.` nor `..`. -/
def PlainName (name : String) : Prop :=
  name.data ≠ [] ∧ '/' ∉ name.data ∧ name.data ≠ ['.'] ∧ name.data ≠ ['.', '.']

/-- What the `copy` of `fs-extra` writes into the options object it is given:
`opts.clobber = 'clobber' in opts ? !!opts.clobber : true`, then
`opts.overwrite = 'overwrite' in opts ? !!opts.overwrite : opts.clobber`. -/
def fsExtraCopyOptions (opts : Options) : Options :=
  let clobber := match getKey opts "clobber" with
    | some v => v.truthy
    | none => true
  let overwrite := match getKey opts "overwrite" with
    | some v => v.truthy
    | none => clobber
  setKey (setKey opts "clobber" (.prim (.bool clobber))) "overwrite" (.prim (.bool overwrite))

/-- A sample filesystem: `assets/a.txt` and `assets/b.txt` are files holding
the bytes of `hi`, `dir` is a directory; every collaborator succeeds.  Its
`copy` writes `clobber` and `overwrite` into the options object as the `copy`
of `fs-extra` does; its `outputFile` leaves the object alone. -/
def sampleEnv : Env where
  path := posix
  inspect := fun t => match t with
    | .plain _ => "[Object]"
    | .other shown => shown
  globby := fun patterns _ => match patterns with
    | .prim (.str "assets/*") => .ok ["assets/a.txt", "assets/b.txt"]
    | .prim (.str "assets/a.txt") => .ok ["assets/a.txt"]
    | .prim (.str "dir") => .ok ["dir"]
    | _ => .ok []
  lstat := fun p => if p = "dir" then .ok .directory else .ok .file
  readFile := fun _ => .ok [104, 105]
  copy := fun _ _ opts => (fsExtraCopyOptions opts, .ok ())
  outputFile := fun _ _ opts => (opts, .ok ())

instance instDecidableEqExcept {ε α : Type} [DecidableEq ε] [DecidableEq α] :
    DecidableEq (Except ε α) := fun x y =>
  match x, y with
  | .ok a, .ok b =>
    if h : a = b then isTrue (by rw [h]) else isFalse (fun h2 => h (by cases h2; rfl))
  | .error a, .error b =>
    if h : a = b then isTrue (by rw [h]) else isFalse (fun h2 => h (by cases h2; rfl))
  | .ok _, .error _ => isFalse (fun h2 => by cases h2)
  | .error _, .ok _ => isFalse (fun h2 => by cases h2)

/-- The sample filesystem after a change: `assets/*` now also matches
`assets/c.txt`, and files hold other bytes. -/
def changedEnv : Env :=
  { sampleEnv with
    globby := fun patterns _ => match patterns with
      | .prim (.str "assets/*") => .ok ["assets/a.txt", "assets/b.txt", "assets/c.txt"]
      | _ => .ok []
    readFile := fun _ => .ok [98, 121, 101] }

/-- The configuration `{ targets: [{ src: 'assets/*', dest: 'out' }], copyOnce: true }`. -/
def onceConfig : Config :=
  { copyOnce := true
    targets := [.plain { src := .prim (.str "assets/*"), dest := .prim (.str "out") }] }

/-- The configuration `{ targets: [{ src: 'assets/*', dest: 'out' }, { dest: 'out' }] }`:
a valid descriptor followed by one without `src`. -/
def validThenInvalid : Config :=
  { targets := [.plain { src := .prim (.str "assets/*"), dest := .prim (.str "out") },
      .plain { dest := .prim (.str "out") }] }

/-- The configuration `{ targets: [{ dest: 'out' }, { src: 'assets/*', dest: 'out' }] }`:
a descriptor without `src` followed by a valid one. -/
def invalidThenValid : Config :=
  { targets := [.plain { dest := .prim (.str "out") },
      .plain { src := .prim (.str "assets/*"), dest := .prim (.str "out") }] }

/-- The configuration
`{ targets: [{ src: 'assets/a.txt', dest: 'out', transform: () => '' }] }`:
the transform answers the empty string. -/
def emptyTransformConfig : Config :=
  { targets := [.plain
      { src := .prim (.str "assets/a.txt")
        dest := .prim (.str "out")
        transform := .func (fun _ => .ok (.prim (.str ""))) }] }

/-- The configuration
`{ targets: [{ src: 'assets/a.txt', dest: 'out', overwrite: true }], overwrite: false }`:
the descriptor and the plugin disagree on the extra option `overwrite`. -/
def overwriteConfig : Config :=
  { targets := [.plain
      { src := .prim (.str "assets/a.txt")
        dest := .prim (.str "out")
        rest := [("overwrite", .prim (.bool true))] }]
    rest := [("overwrite", .prim (.bool false))] }

/-- The configuration `{ targets: [{ src: 'assets/a.txt', dest: 'out', rename: 0 }] }`:
`rename` is present and is the number `0`. -/
def renameZeroConfig : Config :=
  { targets := [.plain
      { src := .prim (.str "assets/a.txt")
        dest := .prim (.str "out")
        rename := .value (.prim (.num 0)) }] }

/-- The configuration of three descriptors: `assets/*` to the two directories
`out` and `out2`, a pattern without a match, and the directory `dir` to `out`. -/
def threeTargets : Config :=
  { targets := [
      .plain { src := .prim (.str "assets/*"), dest := .arr [.str "out", .str "out2"] },
      .plain { src := .prim (.str "nothing/*"), dest := .prim (.str "out") },
      .plain { src := .prim (.str "dir"), dest := .prim (.str "out") }] }

/-- The configuration
`{ targets: [{ src: 'assets/a.txt', dest: 5 }, { dest: 'out' }] }`: a
descriptor that passes the validation but whose `dest` is a number, followed
by one without `src`. -/
def numberDestConfig : Config :=
  { targets := [.plain { src := .prim (.str "assets/a.txt"), dest := .prim (.num 5) },
      .plain { dest := .prim (.str "out") }] }

/-- The configuration
`{ targets: [{ src: 'assets/a.txt', dest: 'out', transform: 5 }, { dest: 'out' }] }`:
a descriptor that passes the validation but whose `transform` is a number,
followed by one without `src`. -/
def numberTransformConfig : Config :=
  { targets := [.plain
      { src := .prim (.str "assets/a.txt")
        dest := .prim (.str "out")
        transform := .value (.prim (.num 5)) },
      .plain { dest := .prim (.str "out") }] }

/-- The configuration `{ targets: [{ src: 'assets/*', dest: 'out' }] }`. -/
def twoFilesConfig : Config :=
  { targets := [.plain { src := .prim (.str "assets/*"), dest := .prim (.str "out") }] }

/-- The collaborators and the user functions of a configuration do not fail:
`globby`, `lstatSync`, `readFileSync`, `fs.copy` and `fs.outputFile` succeed
on every argument, and the `rename` and `transform` functions of the
descriptors return without throwing. -/
structure Reliable (cfg : Config) (env : Env) : Prop where
  globby : ∀ patterns options, ∃ paths, env.globby patterns options = .ok paths
  lstat : ∀ p, ∃ kind, env.lstat p = .ok kind
  readFile : ∀ p, ∃ bytes, env.readFile p = .ok bytes
  copy : ∀ src dest options, (env.copy src dest options).2 = .ok ()
  outputFile : ∀ dest contents options, (env.outputFile dest contents options).2 = .ok ()
  rename : ∀ d, Target.plain d ∈ cfg.targets → ∀ f, d.rename = .func f →
    ∀ name ext, ∃ v, f name ext = .ok v
  transform : ∀ d, Target.plain d ∈ cfg.targets → ∀ f, d.transform = .func f →
    ∀ bytes, ∃ c, f bytes = .ok c

/-- The descriptors that pass the validation hold values of the types the
data model gives them: every destination directory is a string, a `rename`
function returns a string, and a truthy `transform` is a function.  The
validation checks none of these; where one fails, `path.join` or the call of
`transform` throws a `TypeError`. -/
structure WellTyped (cfg : Config) : Prop where
  dest : ∀ d, Target.plain d ∈ cfg.targets → invalid (.plain d) = false →
    ∀ x ∈ destinationList d.dest, x.isString = true
  rename : ∀ d, Target.plain d ∈ cfg.targets → invalid (.plain d) = false →
    ∀ f, d.rename = .func f → ∀ name ext v, f name ext = .ok v → v.isString = true
  transform : ∀ d, Target.plain d ∈ cfg.targets → invalid (.plain d) = false →
    ∀ v, d.transform = .value v → v.truthy = false

/-! ## Basic facts about `Eff` -/

theorem Eff.bind_eq {α β : Type} (x : Eff α) (f : α → Eff β) : x >>= f = x.andThen f := rfl

theorem Eff.pure_eq {α : Type} (a : α) : (pure a : Eff α) = Eff.ret a := rfl

theorem Eff.andThen_ok {α β : Type} (x : Eff α) (f : α → Eff β) (a : α)
    (h : x.result = .ok a) :
    x.andThen f = ⟨x.trace ++ (f a).trace, (f a).result⟩ := by
  simp [Eff.andThen, h]

theorem Eff.andThen_error {α β : Type} (x : Eff α) (f : α → Eff β) (e : Err)
    (h : x.result = .error e) :
    x.andThen f = ⟨x.trace, .error e⟩ := by
  simp [Eff.andThen, h]

theorem Eff.andThen_result_ok {α β : Type} (x : Eff α) (f : α → Eff β) (b : β)
    (h : (x.andThen f).result = .ok b) :
    ∃ a, x.result = .ok a ∧ (f a).result = .ok b := by
  cases hx : x.result with
  | error e => rw [Eff.andThen_error x f e hx] at h; cases h
  | ok a => rw [Eff.andThen_ok x f a hx] at h; exact ⟨a, rfl, h⟩

theorem Eff.lift_andThen {α β : Type} (r : Except Err α) (f : α → Eff β) :
    (Eff.lift r).andThen f = match r with
      | .error e => ⟨[], .error e⟩
      | .ok a => f a := by
  cases r <;> simp [Eff.andThen, Eff.lift]

/-- The body of `generateCopyTarget` in one piece: the `transform` block
first, then the destination. -/
theorem generateCopyTarget_eq (env : Env) (src : String) (dest : JsVal)
    (rename : Field RenameFn) (transform : Field TransformFn) :
    generateCopyTarget env src dest rename transform =
      (transformContents env src transform).andThen fun contents =>
        Eff.lift ((destinationPath env src dest rename).map fun d =>
          { src := src, dest := d, contents := contents }) := by
  unfold generateCopyTarget destinationPath
  simp only [Eff.bind_eq, Eff.pure_eq]
  congr 1
  funext contents
  cases hn : finalName env (env.path.basename src) rename with
  | error e => simp [Eff.andThen, Eff.lift, Except.map]
  | ok name =>
    cases hj : pathJoin env dest name with
    | error e => simp [Eff.andThen, Eff.lift, Except.map, hj]
    | ok d => simp [Eff.andThen, Eff.lift, Except.map, hj, Eff.ret]

/-- Without a truthy `transform` nothing is read and `contents` stays `null`. -/
theorem transformContents_falsy (env : Env) (src : String) (transform : Field TransformFn)
    (h : transform.truthy = false) :
    transformContents env src transform = ⟨[], .ok (.prim .null)⟩ := by
  simp [transformContents, h, Eff.pure_eq, Eff.ret]

/-- A matched directory is not transformed: a warning, `contents` `null`. -/
theorem transformContents_directory (env : Env) (src : String) (transform : Field TransformFn)
    (h : transform.truthy = true) (hd : env.lstat src = .ok .directory) :
    transformContents env src transform =
      ⟨[.lstat src, .log (.transformOnDirectory src)], .ok (.prim .null)⟩ := by
  simp [transformContents, h, Eff.bind_eq, Eff.pure_eq, Eff.andThen, Eff.call, hd,
    Except.mapError, FileKind.isDirectory, Eff.emit, Eff.ret]

/-- A matched non-directory is read in full and handed to `transform`. -/
theorem transformContents_file (env : Env) (src : String) (transform : Field TransformFn)
    (k : FileKind) (bytes : List UInt8)
    (h : transform.truthy = true) (hk : env.lstat src = .ok k) (hnd : k.isDirectory = false)
    (hr : env.readFile src = .ok bytes) :
    transformContents env src transform =
      ⟨[.lstat src, .readFile src], callTransform transform bytes⟩ := by
  simp [transformContents, h, Eff.bind_eq, Eff.andThen, Eff.call, hk, hnd, hr,
    Except.mapError, Eff.lift]

/-! ## Facts about the model of `path.posix` -/

namespace Posix

theorem segments_ne_nil (p : List Char) : segments p ≠ [] := by
  cases p with
  | nil => simp [segments]
  | cons c cs =>
    simp only [segments]
    split
    · simp
    · split <;> simp

theorem segments_no_slash (b : List Char) (h : '/' ∉ b) : segments b = [b] := by
  induction b with
  | nil => rfl
  | cons c cs ih =>
    have hc : c ≠ '/' := fun hc => h (by simp [hc])
    have hcs : '/' ∉ cs := fun hcs => h (by simp [hcs])
    simp [segments, hc, ih hcs]

theorem segments_append (a b : List Char) :
    segments (a ++ '/' :: b) = segments a ++ segments b := by
  induction a with
  | nil => simp [segments]
  | cons c cs ih =>
    by_cases hc : c = '/'
    · simp [segments, hc, ih]
    · simp only [List.cons_append, segments, hc, if_false]
      have ih2 : segments (cs.append ('/' :: b)) = segments cs ++ segments b := ih
      rw [ih2]
      cases hs : segments cs with
      | nil => exact absurd hs (segments_ne_nil cs)
      | cons s ss => simp

theorem joinSegments_snoc (l : List (List Char)) (b : List Char) :
    joinSegments (l ++ [b]) = if l = [] then b else joinSegments l ++ '/' :: b := by
  induction l with
  | nil => simp [joinSegments]
  | cons s rest ih =>
    cases rest with
    | nil => simp [joinSegments]
    | cons t more =>
      simp only [List.cons_append, joinSegments] at ih ⊢
      simp [ih]

theorem basename_plain (b : List Char) (hs : '/' ∉ b) : basename b = b := by
  unfold basename
  have hall : ∀ c ∈ b.reverse, decide (c ≠ '/') = true := by
    intro c hc
    simp only [List.mem_reverse] at hc
    simp only [decide_eq_true_eq]
    intro h; exact hs (h ▸ hc)
  have hdrop : b.reverse.dropWhile (fun c => decide (c = '/')) = b.reverse := by
    cases hb : b.reverse with
    | nil => rfl
    | cons c cs =>
      have : c ≠ '/' := by
        have := hall c (by simp [hb])
        simpa using this
      simp [List.dropWhile, this]
  rw [hdrop]
  have := @List.takeWhile_append_of_pos _ (fun c => decide (c ≠ '/')) b.reverse [] hall
  simp only [List.append_nil, List.takeWhile_nil] at this
  rw [this, List.reverse_reverse]

theorem basename_append_plain (z b : List Char) (hne : b ≠ []) (hs : '/' ∉ b) :
    basename (z ++ '/' :: b) = b := by
  unfold basename
  have hall : ∀ c ∈ b.reverse, decide (c ≠ '/') = true := by
    intro c hc
    simp only [List.mem_reverse] at hc
    simp only [decide_eq_true_eq]
    intro h; exact hs (h ▸ hc)
  have hrev : (z ++ '/' :: b).reverse = b.reverse ++ '/' :: z.reverse := by simp
  rw [hrev]
  have hdrop : (b.reverse ++ '/' :: z.reverse).dropWhile (fun c => decide (c = '/'))
      = b.reverse ++ '/' :: z.reverse := by
    cases hb : b.reverse with
    | nil => simp at hb; exact absurd hb hne
    | cons c cs =>
      have : c ≠ '/' := by
        have := hall c (by simp [hb])
        simpa using this
      simp [List.dropWhile, this]
  rw [hdrop, List.takeWhile_append_of_pos hall]
  simp

theorem getLast_plain (z b : List Char) (hne : b ≠ []) (hs : '/' ∉ b) :
    (z ++ b).getLast? ≠ some '/' := by
  intro h
  rw [List.getLast?_append] at h
  cases hb : b.getLast? with
  | none => simp at hb; exact hne hb
  | some c =>
    rw [hb] at h
    simp at h
    exact hs (h ▸ List.mem_of_getLast?_eq_some hb)

theorem pushSegment_plain (allow : Bool) (stack : List (List Char)) (b : List Char)
    (h1 : b ≠ []) (h2 : b ≠ ['.']) (h3 : b ≠ ['.', '.']) :
    pushSegment allow stack b = b :: stack := by
  simp [pushSegment, h1, h2, h3]

theorem normalize_ends_plain (x b : List Char) (hne : b ≠ []) (hs : '/' ∉ b)
    (h2 : b ≠ ['.']) (h3 : b ≠ ['.', '.'])
    (hx : x = b ∨ ∃ a, x = a ++ '/' :: b) :
    normalize x = b ∨ ∃ z, normalize x = z ++ '/' :: b := by
  have hseg : ∃ pre, segments x = pre ++ [b] := by
    rcases hx with rfl | ⟨a, rfl⟩
    · exact ⟨[], by simp [segments_no_slash _ hs]⟩
    · exact ⟨segments a, by rw [segments_append, segments_no_slash _ hs]⟩
  have hxne : x ≠ [] := by
    rcases hx with rfl | ⟨a, rfl⟩
    · exact hne
    · simp
  have hlast : x.getLast? ≠ some '/' := by
    rcases hx with rfl | ⟨a, rfl⟩
    · simpa using getLast_plain [] _ hne hs
    · have := getLast_plain (a ++ ['/']) b hne hs
      simpa using this
  obtain ⟨pre, hpre⟩ := hseg
  have hnorm : ∀ allow, ∃ l, normalizeSegments allow x = l ++ [b] := by
    intro allow
    refine ⟨(pre.foldl (pushSegment allow) []).reverse, ?_⟩
    simp [normalizeSegments, hpre, List.foldl_append, pushSegment_plain _ _ _ hne h2 h3]
  unfold normalize
  simp only [hxne, if_false, hlast]
  obtain ⟨l, hl⟩ := hnorm (!decide (x.head? = some '/'))
  rw [hl, joinSegments_snoc]
  by_cases hlnil : l = []
  · simp only [hlnil, if_true, hne, if_false]
    by_cases habs : x.head? = some '/'
    · right; exact ⟨[], by simp [habs]⟩
    · left; simp [habs]
  · simp only [hlnil, if_false]
    have : joinSegments l ++ '/' :: b ≠ [] := by simp
    simp only [this, if_false]
    by_cases habs : x.head? = some '/'
    · right; exact ⟨'/' :: joinSegments l, by simp [habs]⟩
    · right; exact ⟨joinSegments l, by simp [habs]⟩

theorem basename_join_plain (a b : List Char) (hne : b ≠ []) (hs : '/' ∉ b)
    (h2 : b ≠ ['.']) (h3 : b ≠ ['.', '.']) :
    basename (join a b) = b := by
  have key : ∀ x, (x = b ∨ ∃ a, x = a ++ '/' :: b) → basename (normalize x) = b := by
    intro x hx
    rcases normalize_ends_plain x b hne hs h2 h3 hx with h | ⟨z, h⟩
    · rw [h]; exact basename_plain b hs
    · rw [h]; exact basename_append_plain z b hne hs
  unfold join
  by_cases ha : a = []
  · simp only [ha, if_true, hne, if_false]
    exact key b (Or.inl rfl)
  · simp only [ha, hne, if_false]
    exact key _ (Or.inr ⟨a, rfl⟩)

end Posix

/-! ## Facts about `generateCopyTarget` -/

theorem posix_parse_ext_shape (b : String) : ExtShape (posix.parse b).ext := by
  have key : ∀ (dd : Bool) (base : List Char),
      (Posix.splitExt dd base).2 = [] ∨ ∃ rest, (Posix.splitExt dd base).2 = '.' :: rest := by
    intro dd base
    unfold Posix.splitExt
    dsimp only
    cases base.reverse.dropWhile (fun c => decide (c ≠ '.')) with
    | nil => exact Or.inl rfl
    | cons c preRev =>
      dsimp only
      split
      · exact Or.inl rfl
      · split
        · exact Or.inl rfl
        · exact Or.inr ⟨_, rfl⟩
  unfold ExtShape posix Posix.parse
  dsimp only
  split
  · exact key _ _
  · exact key _ _

theorem replaceDot_eq_stripLeadingDot (ext : String) (h : ExtShape ext) :
    replaceDot ext = stripLeadingDot ext := by
  unfold replaceDot stripLeadingDot
  rcases h with h | ⟨rest, h⟩
  · rw [h]; rfl
  · rw [h]; simp [removeFirstDot]

theorem destinationPath_string (env : Env) (p d r : String) (hr : r ≠ "") :
    destinationPath env p (.prim (.str d)) (.value (.prim (.str r))) = .ok (env.path.join d r) := by
  simp [destinationPath, finalName, Field.truthy, JsVal.truthy, Prim.truthy, hr, renameTarget,
    pathJoin]

theorem destinationPath_function (env : Env) (p d : String) (f : RenameFn) (s : String)
    (hf : f (env.path.parse (env.path.basename p)).name
      (replaceDot (env.path.parse (env.path.basename p)).ext) = .ok (.prim (.str s))) :
    destinationPath env p (.prim (.str d)) (.func f) = .ok (env.path.join d s) := by
  simp [destinationPath, finalName, Field.truthy, renameTarget, callRename, hf, Except.mapError,
    pathJoin]

theorem generateCopyTarget_of_destination (env : Env) (p : String) (dest : JsVal)
    (rename : Field RenameFn) (transform : Field TransformFn) (target : String)
    (hd : destinationPath env p dest rename = .ok target) :
    (∀ op, (generateCopyTarget env p dest rename transform).result = .ok op →
        op.src = p ∧ op.dest = target) ∧
    (∀ c, (transformContents env p transform).result = .ok c →
        (generateCopyTarget env p dest rename transform).result = .ok ⟨p, target, c⟩) := by
  rw [generateCopyTarget_eq, hd]
  constructor
  · intro op hop
    obtain ⟨c, _, hc⟩ := Eff.andThen_result_ok _ _ _ hop
    simp only [Eff.lift, Except.map, Except.ok.injEq] at hc
    subst hc
    exact ⟨rfl, rfl⟩
  · intro c hc
    rw [Eff.andThen_ok _ _ c hc]
    rfl

/-- C2 (amended): for a descriptor whose `rename` is a non-empty string `r`,
every matched path `p` and every destination directory `d`, the resolved
operation has source `p` and destination `d` joined with `r` used literally,
whatever the name of the matched file, and it is produced whenever the
`transform` block does not throw.  Under `path.posix` the basename of that
destination is `r` itself when `r` is a plain file name. -/
theorem rename_string_is_literal (env : Env) (p d r : String) (transform : Field TransformFn)
    (hr : r ≠ "") :
    (∀ op, (generateCopyTarget env p (.prim (.str d)) (.value (.prim (.str r)))
          transform).result = .ok op →
        op.src = p ∧ op.dest = env.path.join d r ∧
          (env.path = posix → PlainName r → env.path.basename op.dest = r)) ∧
    (∀ c, (transformContents env p transform).result = .ok c →
        (generateCopyTarget env p (.prim (.str d)) (.value (.prim (.str r))) transform).result
          = .ok ⟨p, env.path.join d r, c⟩) := by
  have h := generateCopyTarget_of_destination env p (.prim (.str d)) (.value (.prim (.str r)))
    transform _ (destinationPath_string env p d r hr)
  refine ⟨fun op hop => ⟨(h.1 op hop).1, (h.1 op hop).2, ?_⟩, h.2⟩
  intro hposix hplain
  rw [(h.1 op hop).2, hposix]
  obtain ⟨h1, h2, h3, h4⟩ := hplain
  show String.mk (Posix.basename (String.mk (Posix.join d.data r.data)).data) = r
  rw [Posix.basename_join_plain d.data r.data h1 h2 h3 h4]

/-- C2, witness: `rename = "fixed.txt"` over the two matched files
`assets/a.txt` and `assets/b.txt` gives the destination `out/fixed.txt`,
basename `fixed.txt`, both times. -/
theorem rename_string_is_literal_witness :
    "fixed.txt" ≠ "" ∧
    (generateCopyTarget sampleEnv "assets/a.txt" (.prim (.str "out"))
        (.value (.prim (.str "fixed.txt"))) (.value (.prim .undefined))).result
      = .ok ⟨"assets/a.txt", "out/fixed.txt", .prim .null⟩ ∧
    (generateCopyTarget sampleEnv "assets/b.txt" (.prim (.str "out"))
        (.value (.prim (.str "fixed.txt"))) (.value (.prim .undefined))).result
      = .ok ⟨"assets/b.txt", "out/fixed.txt", .prim .null⟩ ∧
    sampleEnv.path.basename "out/fixed.txt" = "fixed.txt" :=
  ⟨by decide,
   (rename_string_is_literal sampleEnv "assets/a.txt" "out" "fixed.txt"
      (.value (.prim .undefined)) (by decide)).2 (.prim .null) (by decide),
   (rename_string_is_literal sampleEnv "assets/b.txt" "out" "fixed.txt"
      (.value (.prim .undefined)) (by decide)).2 (.prim .null) (by decide),
   by decide⟩

/-- C2, counterexample: with `rename` the empty string the operation resolved
for `assets/a.txt` and the directory `out` goes to `out/a.txt`, the matched
file's own name, while `out` joined with the rename string is `out`. -/
theorem rename_empty_string_keeps_basename :
    (generateCopyTarget sampleEnv "assets/a.txt" (.prim (.str "out"))
        (.value (.prim (.str ""))) (.value (.prim .undefined))).result
      = .ok ⟨"assets/a.txt", "out/a.txt", .prim .null⟩ ∧
    sampleEnv.path.join "out" "" = "out" ∧
    sampleEnv.path.join "out" "" ≠ "out/a.txt" := by
  decide

/-- C3: for a descriptor whose `rename` is a function `f`, every matched
path `p` and every destination directory `d`, the resolved operation has
destination `d` joined with `f(name, ext)`, where `name` and `ext` are the
`name` field of `path.parse(path.basename(p))` and its `ext` field without the
leading dot; the operation is produced whenever the `transform` block does not
throw. -/
theorem rename_function_replaces_basename (env : Env) (p d : String) (f : RenameFn)
    (transform : Field TransformFn) (s : String)
    (hext : ExtShape (env.path.parse (env.path.basename p)).ext)
    (hf : f (env.path.parse (env.path.basename p)).name
      (stripLeadingDot (env.path.parse (env.path.basename p)).ext) = .ok (.prim (.str s))) :
    (∀ op, (generateCopyTarget env p (.prim (.str d)) (.func f) transform).result = .ok op →
        op.src = p ∧ op.dest = env.path.join d s) ∧
    (∀ c, (transformContents env p transform).result = .ok c →
        (generateCopyTarget env p (.prim (.str d)) (.func f) transform).result
          = .ok ⟨p, env.path.join d s, c⟩) := by
  rw [← replaceDot_eq_stripLeadingDot _ hext] at hf
  exact generateCopyTarget_of_destination env p (.prim (.str d)) (.func f) transform _
    (destinationPath_function env p d f s hf)

/-- C3, witness: `rename = (name, ext) => name + '.bak'` on the matched file
`assets/a.txt` gives the destination `out/a.bak`, basename `a.bak`. -/
theorem rename_function_replaces_basename_witness :
    ExtShape (sampleEnv.path.parse (sampleEnv.path.basename "assets/a.txt")).ext ∧
    (sampleEnv.path.parse (sampleEnv.path.basename "assets/a.txt")).name = "a" ∧
    stripLeadingDot (sampleEnv.path.parse (sampleEnv.path.basename "assets/a.txt")).ext = "txt" ∧
    (generateCopyTarget sampleEnv "assets/a.txt" (.prim (.str "out"))
        (.func (fun name _ => .ok (.prim (.str (name ++ ".bak")))))
        (.value (.prim .undefined))).result
      = .ok ⟨"assets/a.txt", "out/a.bak", .prim .null⟩ ∧
    sampleEnv.path.basename "out/a.bak" = "a.bak" :=
  ⟨posix_parse_ext_shape _, by decide, by decide,
   (rename_function_replaces_basename sampleEnv "assets/a.txt" "out"
      (fun name _ => .ok (.prim (.str (name ++ ".bak")))) (.value (.prim .undefined)) "a.bak"
      (posix_parse_ext_shape _) (by decide)).2 (.prim .null) (by decide),
   by decide⟩

/-- C9: for a descriptor with a `transform` function and a matched path `p`:
if `p` is a directory the operation is still resolved, with `contents` `null`,
after a warning and without reading `p`; if `p` is a regular file whose
contents are `bytes`, the operation's `contents` is `transform(bytes)`.
Without a truthy `transform` nothing is read and `contents` is `null`. -/
theorem transform_contents_by_kind (env : Env) (p : String) (dest : JsVal)
    (rename : Field RenameFn) :
    (∀ f : TransformFn, env.lstat p = .ok .directory →
      generateCopyTarget env p dest rename (.func f) =
        ⟨[.lstat p, .log (.transformOnDirectory p)],
          (destinationPath env p dest rename).map fun d => ⟨p, d, .prim .null⟩⟩) ∧
    (∀ (f : TransformFn) (bytes : List UInt8),
      env.lstat p = .ok .file → env.readFile p = .ok bytes →
      generateCopyTarget env p dest rename (.func f) =
        ⟨[.lstat p, .readFile p],
          match f bytes with
          | .error m => .error (.thrown m)
          | .ok c => (destinationPath env p dest rename).map fun d => ⟨p, d, c⟩⟩) ∧
    (∀ transform : Field TransformFn, transform.truthy = false →
      generateCopyTarget env p dest rename transform =
        ⟨[], (destinationPath env p dest rename).map fun d => ⟨p, d, .prim .null⟩⟩) := by
  refine ⟨?_, ?_, ?_⟩
  · intro f hd
    rw [generateCopyTarget_eq, transformContents_directory env p (.func f) rfl hd]
    simp [Eff.andThen, Eff.lift]
  · intro f bytes hk hr
    rw [generateCopyTarget_eq, transformContents_file env p (.func f) .file bytes rfl hk rfl hr]
    cases hfb : f bytes with
    | error m => simp [Eff.andThen, callTransform, hfb, Except.mapError]
    | ok c => simp [Eff.andThen, callTransform, hfb, Except.mapError, Eff.lift]
  · intro transform ht
    rw [generateCopyTarget_eq, transformContents_falsy env p transform ht]
    simp [Eff.andThen, Eff.lift]

/-- C9, witness: with a `transform` that answers `HI`, the matched directory
`dir` is queued with `contents` `null` after a warning, and the matched file
`assets/a.txt` is queued with `contents` `HI`. -/
theorem transform_contents_by_kind_witness :
    generateCopyTarget sampleEnv "dir" (.prim (.str "out")) (.value (.prim .undefined))
        (.func (fun _ => .ok (.prim (.str "HI")))) =
      ⟨[.lstat "dir", .log (.transformOnDirectory "dir")],
        .ok ⟨"dir", "out/dir", .prim .null⟩⟩ ∧
    generateCopyTarget sampleEnv "assets/a.txt" (.prim (.str "out")) (.value (.prim .undefined))
        (.func (fun _ => .ok (.prim (.str "HI")))) =
      ⟨[.lstat "assets/a.txt", .readFile "assets/a.txt"],
        .ok ⟨"assets/a.txt", "out/a.txt", .prim (.str "HI")⟩⟩ :=
  ⟨((transform_contents_by_kind sampleEnv "dir" (.prim (.str "out"))
      (.value (.prim .undefined))).1 _ (by decide)).trans (by rfl),
   ((transform_contents_by_kind sampleEnv "assets/a.txt" (.prim (.str "out"))
      (.value (.prim .undefined))).2.1 _ [104, 105] (by decide) (by decide)).trans (by rfl)⟩

/-! ## Facts about the resolution loop -/

theorem Eff.andThen_trace_filter {α β : Type} (q : Event → Bool) (x : Eff α) (f : α → Eff β)
    (hx : x.trace.filter q = []) (hf : ∀ a, (f a).trace.filter q = []) :
    (x.andThen f).trace.filter q = [] := by
  cases h : x.result with
  | error e => rw [Eff.andThen_error x f e h]; exact hx
  | ok a => rw [Eff.andThen_ok x f a h]; simp [List.filter_append, hx, hf a]

theorem transformContents_no_write (env : Env) (src : String) (transform : Field TransformFn) :
    (transformContents env src transform).trace.filter Event.isWrite = [] ∧
    (transformContents env src transform).trace.filter Event.isGlob = [] := by
  unfold transformContents
  by_cases ht : transform.truthy = true
  · simp only [ht, if_true, Eff.bind_eq]
    cases hk : env.lstat src with
    | error m => simp [Eff.andThen, Eff.call, hk, Except.mapError, Event.isWrite, Event.isGlob]
    | ok k =>
      cases hr : env.readFile src with
      | error m =>
        cases hkd : k.isDirectory <;>
          simp [Eff.andThen, Eff.call, hk, hr, hkd, Except.mapError, Event.isWrite,
            Event.isGlob, Eff.emit, Eff.pure_eq, Eff.ret]
      | ok bytes =>
        cases hkd : k.isDirectory <;>
          simp [Eff.andThen, Eff.call, hk, hr, hkd, Except.mapError, Event.isWrite,
            Event.isGlob, Eff.emit, Eff.pure_eq, Eff.ret, Eff.lift]
  · simp [ht, Eff.pure_eq, Eff.ret]

theorem generateCopyTarget_no_write (env : Env) (src : String) (dest : JsVal)
    (rename : Field RenameFn) (transform : Field TransformFn) :
    (generateCopyTarget env src dest rename transform).trace.filter Event.isWrite = [] ∧
    (generateCopyTarget env src dest rename transform).trace.filter Event.isGlob = [] := by
  rw [generateCopyTarget_eq]
  exact ⟨Eff.andThen_trace_filter _ _ _ (transformContents_no_write env src transform).1
      (fun _ => rfl),
    Eff.andThen_trace_filter _ _ _ (transformContents_no_write env src transform).2
      (fun _ => rfl)⟩

theorem mapDestinations_no_write (env : Env) (p : String) (rename : Field RenameFn)
    (transform : Field TransformFn) (xs : List Prim) :
    (mapDestinations env p rename transform xs).trace.filter Event.isWrite = [] ∧
    (mapDestinations env p rename transform xs).trace.filter Event.isGlob = [] := by
  induction xs with
  | nil => exact ⟨rfl, rfl⟩
  | cons x more ih =>
    simp only [mapDestinations, Eff.bind_eq]
    exact ⟨Eff.andThen_trace_filter _ _ _ (generateCopyTarget_no_write _ _ _ _ _).1
        (fun _ => Eff.andThen_trace_filter _ _ _ ih.1 (fun _ => rfl)),
      Eff.andThen_trace_filter _ _ _ (generateCopyTarget_no_write _ _ _ _ _).2
        (fun _ => Eff.andThen_trace_filter _ _ _ ih.2 (fun _ => rfl))⟩

theorem generatedCopyTargets_no_write (env : Env) (p : String) (d : Descriptor) :
    (generatedCopyTargets env p d).trace.filter Event.isWrite = [] ∧
    (generatedCopyTargets env p d).trace.filter Event.isGlob = [] := by
  unfold generatedCopyTargets
  split
  · exact mapDestinations_no_write _ _ _ _ _
  · simp only [Eff.bind_eq]
    exact ⟨Eff.andThen_trace_filter _ _ _ (generateCopyTarget_no_write _ _ _ _ _).1
        (fun _ => rfl),
      Eff.andThen_trace_filter _ _ _ (generateCopyTarget_no_write _ _ _ _ _).2 (fun _ => rfl)⟩

theorem forEachMatched_no_write (env : Env) (d : Descriptor) (ps : List String)
    (acc : List CopyTarget) :
    (forEachMatched env d ps acc).trace.filter Event.isWrite = [] ∧
    (forEachMatched env d ps acc).trace.filter Event.isGlob = [] := by
  induction ps generalizing acc with
  | nil => exact ⟨rfl, rfl⟩
  | cons p more ih =>
    simp only [forEachMatched, Eff.bind_eq]
    exact ⟨Eff.andThen_trace_filter _ _ _ (generatedCopyTargets_no_write _ _ _).1
        (fun _ => (ih _).1),
      Eff.andThen_trace_filter _ _ _ (generatedCopyTargets_no_write _ _ _).2
        (fun _ => (ih _).2)⟩

/-- What the loop does with a target that passes the three checks. -/
theorem resolveTargets_cons_valid (rest : Options) (env : Env) (d : Descriptor)
    (more : List Target) (acc : List CopyTarget) (hv : invalid (.plain d) = false) :
    resolveTargets rest env (.plain d :: more) acc =
      (Eff.call (globEvent rest d) (env.globby d.src (globOptions rest d))).andThen fun ps =>
        (forEachMatched env d ps acc).andThen fun acc2 => resolveTargets rest env more acc2 := by
  have h1 : (!d.src.truthy || !d.dest.truthy) = false := by
    cases h : (!d.src.truthy || !d.dest.truthy)
    · rfl
    · simp [invalid, h] at hv
  have h2 : (d.rename.truthy && !d.rename.isString && !d.rename.isFunction) = false := by
    cases h : (d.rename.truthy && !d.rename.isString && !d.rename.isFunction)
    · rfl
    · simp [invalid, h] at hv
  rw [resolveTargets]
  simp only [h1, h2, Bool.false_eq_true, if_false, Eff.bind_eq, globEvent]

/-- A target that fails one of the three checks makes the loop throw a
configuration error on the spot. -/
theorem resolveTargets_cons_invalid (rest : Options) (env : Env) (t : Target)
    (hi : invalid t = true) :
    ∃ msg, ∀ (more : List Target) (acc : List CopyTarget),
      resolveTargets rest env (t :: more) acc = ⟨[], .error (.config msg)⟩ := by
  cases t with
  | other shown => exact ⟨_, fun more acc => by rw [resolveTargets]; rfl⟩
  | plain d =>
    by_cases h1 : (!d.src.truthy || !d.dest.truthy) = true
    · exact ⟨_, fun more acc => by rw [resolveTargets]; simp only [h1, if_true]; rfl⟩
    · have h2 : (d.rename.truthy && !d.rename.isString && !d.rename.isFunction) = true := by
        cases h : (d.rename.truthy && !d.rename.isString && !d.rename.isFunction)
        · simp only [Bool.not_eq_true] at h1
          simp [invalid, h, h1] at hi
        · rfl
      exact ⟨_, fun more acc => by
        rw [resolveTargets]; simp only [h1, h2, if_true, if_false]; rfl⟩

theorem resolveTargets_no_write (rest : Options) (env : Env) (ts : List Target)
    (acc : List CopyTarget) :
    (resolveTargets rest env ts acc).trace.filter Event.isWrite = [] := by
  induction ts generalizing acc with
  | nil => rfl
  | cons t more ih =>
    cases hi : invalid t with
    | true =>
      obtain ⟨msg, h⟩ := resolveTargets_cons_invalid rest env t hi
      rw [h]; rfl
    | false =>
      cases t with
      | other shown => simp [invalid] at hi
      | plain d =>
        rw [resolveTargets_cons_valid rest env d more acc hi]
        exact Eff.andThen_trace_filter _ _ _ rfl
          (fun _ => Eff.andThen_trace_filter _ _ _ (forEachMatched_no_write _ _ _ _).1
            (fun _ => ih _))

theorem Eff.andThen_assoc {α β γ : Type} (x : Eff α) (f : α → Eff β) (g : β → Eff γ) :
    (x.andThen f).andThen g = x.andThen fun a => (f a).andThen g := by
  cases hx : x.result with
  | error e => simp [Eff.andThen, hx]
  | ok a =>
    cases hf : (f a).result with
    | error e => simp [Eff.andThen, hx, hf]
    | ok b => simp [Eff.andThen, hx, hf]

theorem Eff.ret_andThen {α β : Type} (a : α) (f : α → Eff β) : (Eff.ret a).andThen f = f a := by
  simp [Eff.andThen, Eff.ret]

/-- The loop over a concatenation is the loop over the first part followed by
the loop over the second. -/
theorem resolveTargets_append (rest : Options) (env : Env) (pre post : List Target)
    (acc : List CopyTarget) :
    resolveTargets rest env (pre ++ post) acc =
      (resolveTargets rest env pre acc).andThen fun acc2 => resolveTargets rest env post acc2 := by
  induction pre generalizing acc with
  | nil =>
    show _ = (Eff.ret acc).andThen _
    rw [Eff.ret_andThen]; rfl
  | cons t more ih =>
    cases hi : invalid t with
    | true =>
      obtain ⟨msg, h⟩ := resolveTargets_cons_invalid rest env t hi
      rw [List.cons_append, h, h]
      simp [Eff.andThen]
    | false =>
      cases t with
      | other shown => simp [invalid] at hi
      | plain d =>
        rw [List.cons_append, resolveTargets_cons_valid rest env d _ acc hi,
          resolveTargets_cons_valid rest env d _ acc hi, Eff.andThen_assoc]
        congr 1
        funext ps
        rw [Eff.andThen_assoc]
        congr 1
        funext acc2
        exact ih acc2

/-- A loop that meets an invalid target makes the calls of the loop over the
targets before it and throws. -/
theorem resolveTargets_stops_at_invalid (rest : Options) (env : Env) (pre post : List Target)
    (bad : Target) (acc : List CopyTarget) (hbad : invalid bad = true) :
    (resolveTargets rest env (pre ++ bad :: post) acc).trace
        = (resolveTargets rest env pre acc).trace ∧
    ((∀ e, (resolveTargets rest env pre acc).result = .error e →
        (resolveTargets rest env (pre ++ bad :: post) acc).result = .error e) ∧
      (∀ out, (resolveTargets rest env pre acc).result = .ok out →
        ∃ msg, (resolveTargets rest env (pre ++ bad :: post) acc).result
          = .error (.config msg))) := by
  rw [resolveTargets_append]
  cases h : (resolveTargets rest env pre acc).result with
  | error e =>
    rw [Eff.andThen_error _ _ e h]
    exact ⟨rfl, fun e2 he => (by cases he; rfl), fun out ho => (by cases ho)⟩
  | ok out =>
    obtain ⟨msg, hm⟩ := resolveTargets_cons_invalid rest env bad hbad
    rw [Eff.andThen_ok _ _ out h, hm]
    exact ⟨by simp, fun e he => (by cases he), fun _ _ => ⟨msg, rfl⟩⟩

theorem mem_split_invalid (ts : List Target) (h : ∃ t ∈ ts, invalid t = true) :
    ∃ pre bad post, ts = pre ++ bad :: post ∧ invalid bad = true := by
  obtain ⟨t, ht, hi⟩ := h
  obtain ⟨pre, post, hsplit⟩ := List.append_of_mem ht
  exact ⟨pre, t, post, hsplit, hi⟩

/-- A target list with an invalid target never resolves. -/
theorem resolveTargets_error_of_invalid (rest : Options) (env : Env) (ts : List Target)
    (acc : List CopyTarget) (h : ∃ t ∈ ts, invalid t = true) :
    ∃ e, (resolveTargets rest env ts acc).result = .error e := by
  obtain ⟨pre, bad, post, rfl, hbad⟩ := mem_split_invalid ts h
  have hs := (resolveTargets_stops_at_invalid rest env pre post bad acc hbad).2
  cases hp : (resolveTargets rest env pre acc).result with
  | error e => exact ⟨e, hs.1 e hp⟩
  | ok out =>
    obtain ⟨msg, hm⟩ := hs.2 out hp
    exact ⟨_, hm⟩

/-- The `globby` calls of the loop are those of its descriptors, in order:
a beginning of them in general, all of them when the loop completes. -/
theorem resolveTargets_glob_calls (rest : Options) (env : Env) (ts : List Target)
    (acc : List CopyTarget) :
    (resolveTargets rest env ts acc).trace.filter Event.isGlob
        <+: (descriptors ts).map (globEvent rest) ∧
    (∀ out, (resolveTargets rest env ts acc).result = .ok out →
      (resolveTargets rest env ts acc).trace.filter Event.isGlob
        = (descriptors ts).map (globEvent rest)) := by
  induction ts generalizing acc with
  | nil =>
    refine ⟨?_, fun _ _ => rfl⟩
    show [] <+: _
    exact List.nil_prefix
  | cons t more ih =>
    cases hi : invalid t with
    | true =>
      obtain ⟨msg, h⟩ := resolveTargets_cons_invalid rest env t hi
      rw [h]
      exact ⟨List.nil_prefix, fun out ho => (by cases ho)⟩
    | false =>
      cases t with
      | other shown => simp [invalid] at hi
      | plain d =>
        rw [resolveTargets_cons_valid rest env d more acc hi]
        have hg : [globEvent rest d].filter Event.isGlob = [globEvent rest d] := rfl
        cases hglob : env.globby d.src (globOptions rest d) with
        | error m =>
          simp only [Eff.andThen, Eff.call, hglob, Except.mapError, descriptors, List.map_cons]
          refine ⟨?_, fun out ho => by cases ho⟩
          rw [hg]
          exact (List.prefix_cons_inj _).2 List.nil_prefix
        | ok ps =>
          rw [Eff.andThen_ok _ _ ps rfl]
          have hfe := (forEachMatched_no_write env d ps acc).2
          cases hf : (forEachMatched env d ps acc).result with
          | error e =>
            rw [Eff.andThen_error _ _ e hf]
            simp only [Eff.call, List.filter_append, hfe, List.append_nil, descriptors,
              List.map_cons]
            refine ⟨?_, fun out ho => by cases ho⟩
            rw [hg]
            exact (List.prefix_cons_inj _).2 List.nil_prefix
          | ok acc2 =>
            rw [Eff.andThen_ok _ _ acc2 hf]
            have hc : ∀ l, List.filter Event.isGlob (globEvent rest d :: l)
                = globEvent rest d :: List.filter Event.isGlob l :=
              fun l => by simp [List.filter_cons, globEvent, Event.isGlob]
            simp only [Eff.call, descriptors, List.map_cons, List.singleton_append, hc,
              List.filter_append, hfe, List.nil_append]
            refine ⟨(List.prefix_cons_inj _).2 (ih acc2).1, fun out ho => ?_⟩
            rw [(ih acc2).2 out ho]

/-! ## Facts about the executor and the hook -/

theorem writeEvent_isWrite (rest : Options) (t : CopyTarget) :
    (writeEvent rest t).isWrite = true ∧ (writeEvent rest t).isGlob = false ∧
      (writeEvent rest t).writeOptions = some rest := by
  unfold writeEvent
  split <;> exact ⟨rfl, rfl, rfl⟩

theorem writeEvent_optionsAfter (env : Env) (rest : Options) (t : CopyTarget) :
    (writeEvent rest t).optionsAfter env = some (restAfter env rest t) := by
  unfold writeEvent restAfter
  split <;> rfl

theorem writeCall_fst (env : Env) (rest : Options) (t : CopyTarget) :
    (writeCall env rest t).1 = writeEvent rest t ∧
    (writeCall env rest t).2.1 = restAfter env rest t := by
  unfold writeCall writeEvent restAfter
  split <;> exact ⟨rfl, rfl⟩

/-- One iteration of the executor calls exactly one of `fs.outputFile` and
`fs.copy`, whichever `contents` selects, with the object `restPluginOptions`,
and nothing but `console.log` after it. -/
theorem executeOne_trace (cfg : Config) (env : Env) (rest : Options) (t : CopyTarget) :
    ((executeOne cfg env rest t).trace = [writeEvent rest t] ∨
      (executeOne cfg env rest t).trace
        = [writeEvent rest t, .log (.copiedItem t.src t.dest t.contents.truthy)]) ∧
    (executeOne cfg env rest t).rest = restAfter env rest t := by
  have hc := writeCall_fst env rest t
  unfold executeOne
  cases hr : (writeCall env rest t).2.2 with
  | error m => exact ⟨Or.inl (by rw [hc.1]), hc.2⟩
  | ok u =>
    refine ⟨?_, hc.2⟩
    by_cases hv : cfg.verbose = true
    · right; simp only [hv, if_true, hc.1]
    · left; simp only [hv, if_false, hc.1, Bool.false_eq_true]

theorem executeOne_writes (cfg : Config) (env : Env) (rest : Options) (t : CopyTarget) :
    (executeOne cfg env rest t).trace.filter Event.isWrite = [writeEvent rest t] ∧
    (executeOne cfg env rest t).trace.filter Event.isGlob = [] := by
  have hw := writeEvent_isWrite rest t
  have hl1 : ∀ line, (Event.log line).isWrite = false := fun _ => rfl
  have hl2 : ∀ line, (Event.log line).isGlob = false := fun _ => rfl
  rcases (executeOne_trace cfg env rest t).1 with h | h <;>
    simp only [h, List.filter_cons, hw.1, hw.2.1, hl1, hl2, if_true, Bool.false_eq_true,
      if_false, List.filter_nil, and_self]

/-- The executor throws only what `fs.copy` or `fs.outputFile` throws. -/
theorem executeOne_error (cfg : Config) (env : Env) (rest : Options) (t : CopyTarget)
    (e : Err) (h : (executeOne cfg env rest t).result = .error e) : e.isConfig = false := by
  unfold executeOne at h
  cases hr : (writeCall env rest t).2.2 with
  | error m =>
    rw [hr] at h
    simp only [Except.error.injEq] at h
    rw [← h]; rfl
  | ok u => rw [hr] at h; cases h

theorem executeAll_cons (cfg : Config) (env : Env) (rest : Options) (t : CopyTarget)
    (more : List CopyTarget) :
    (∀ e, (executeOne cfg env rest t).result = .error e →
      executeAll cfg env rest (t :: more)
        = ⟨(executeOne cfg env rest t).trace, .error e, restAfter env rest t⟩) ∧
    ((executeOne cfg env rest t).result = .ok () →
      executeAll cfg env rest (t :: more)
        = ⟨(executeOne cfg env rest t).trace
            ++ (executeAll cfg env (restAfter env rest t) more).trace,
          (executeAll cfg env (restAfter env rest t) more).result,
          (executeAll cfg env (restAfter env rest t) more).rest⟩) := by
  have hrest := (executeOne_trace cfg env rest t).2
  constructor
  · intro e he
    rw [executeAll]
    simp only [he, hrest]
  · intro hok
    rw [executeAll]
    simp only [hok, hrest]

/-- The calls of `fs.copy` and `fs.outputFile` made by the loop of the
executor: a beginning of the calls that execute the operations in order, all
of them when the loop completes; they pass the object `restPluginOptions`
along, and no `globby` call is made. -/
theorem executeAll_writes (cfg : Config) (env : Env) (rest : Options) (ops : List CopyTarget) :
    ((executeAll cfg env rest ops).trace.filter Event.isWrite <+: writeEvents env rest ops ∧
      ((executeAll cfg env rest ops).result = .ok () →
        (executeAll cfg env rest ops).trace.filter Event.isWrite = writeEvents env rest ops)) ∧
    (executeAll cfg env rest ops).trace.filter Event.isGlob = [] ∧
    OptionsChain env rest ((executeAll cfg env rest ops).trace.filter Event.isWrite)
      (executeAll cfg env rest ops).rest ∧
    (∀ e, (executeAll cfg env rest ops).result = .error e → e.isConfig = false) := by
  induction ops generalizing rest with
  | nil =>
    exact ⟨⟨List.nil_prefix, fun _ => rfl⟩, rfl, rfl, fun e he => by cases he⟩
  | cons t more ih =>
    have h1 := executeOne_writes cfg env rest t
    have hchain : ∀ final evs, OptionsChain env (restAfter env rest t) evs final →
        OptionsChain env rest (writeEvent rest t :: evs) final :=
      fun final evs h =>
        ⟨(writeEvent_isWrite rest t).2.2, _, writeEvent_optionsAfter env rest t, h⟩
    cases hr : (executeOne cfg env rest t).result with
    | error e =>
      rw [(executeAll_cons cfg env rest t more).1 e hr]
      simp only [writeEvents, h1.1, h1.2]
      refine ⟨⟨(List.prefix_cons_inj _).2 List.nil_prefix, fun ho => by cases ho⟩, trivial,
        hchain _ [] rfl, ?_⟩
      intro e2 he2
      simp only [Except.error.injEq] at he2
      rw [← he2]
      exact executeOne_error cfg env rest t e hr
    | ok u =>
      rw [(executeAll_cons cfg env rest t more).2 hr]
      have ih2 := ih (restAfter env rest t)
      simp only [List.filter_append, h1.1, h1.2, List.singleton_append, List.nil_append,
        writeEvents]
      exact ⟨⟨(List.prefix_cons_inj _).2 ih2.1.1, fun ho => by rw [ih2.1.2 ho]⟩, ih2.2.1,
        hchain _ _ ih2.2.2.1, ih2.2.2.2⟩

theorem execute_writes (cfg : Config) (env : Env) (rest : Options) (ops : List CopyTarget) :
    ((execute cfg env rest ops).trace.filter Event.isWrite <+: writeEvents env rest ops ∧
      ((execute cfg env rest ops).result = .ok () →
        (execute cfg env rest ops).trace.filter Event.isWrite = writeEvents env rest ops)) ∧
    (execute cfg env rest ops).trace.filter Event.isGlob = [] ∧
    OptionsChain env rest ((execute cfg env rest ops).trace.filter Event.isWrite)
      (execute cfg env rest ops).rest ∧
    (∀ e, (execute cfg env rest ops).result = .error e → e.isConfig = false) := by
  unfold execute
  have h := executeAll_writes cfg env rest ops
  have hlog : ∀ (q : Event → Bool) (line : LogLine), q (.log line) = false →
      ∀ l : List Event, ((if cfg.verbose then [Event.log line] else []) ++ l).filter q
        = l.filter q := by
    intro q line hq l
    by_cases hv : cfg.verbose = true
    · simp only [hv, if_true, List.singleton_append, List.filter_cons, hq, Bool.false_eq_true,
        if_false]
    · simp only [hv, if_false, List.nil_append, Bool.false_eq_true]
  by_cases hl : ops.length ≠ 0
  · rw [if_pos hl]
    simp only [hlog Event.isWrite _ rfl, hlog Event.isGlob _ rfl]
    exact h
  · rw [if_neg hl]
    have hnil : ops = [] := by
      cases ops with
      | nil => rfl
      | cons a l => simp at hl
    subst hnil
    have h0 := hlog Event.isWrite .noItems rfl []
    have h1 := hlog Event.isGlob .noItems rfl []
    simp only [List.append_nil, List.filter_nil] at h0 h1
    simp only [h0, h1]
    exact ⟨⟨List.nil_prefix, fun _ => rfl⟩, trivial, rfl, fun e he => by cases he⟩

theorem hookBody_of_resolve_error (cfg : Config) (env : Env) (rest : Options) (e : Err)
    (h : (resolveTargets rest env cfg.targets []).result = .error e) :
    hookBody cfg env rest = ⟨(resolveTargets rest env cfg.targets []).trace, .error e, rest⟩ := by
  unfold hookBody
  simp only [h]

theorem hookBody_of_resolve_ok (cfg : Config) (env : Env) (rest : Options)
    (ops : List CopyTarget) (h : (resolveTargets rest env cfg.targets []).result = .ok ops) :
    hookBody cfg env rest =
      ⟨(resolveTargets rest env cfg.targets []).trace ++ (execute cfg env rest ops).trace,
        (execute cfg env rest ops).result, (execute cfg env rest ops).rest⟩ := by
  unfold hookBody
  simp only [h]

/-- A skipped invocation: `copyOnce && copied`. -/
theorem hook_skip (cfg : Config) (env : Env) (st : HookState)
    (h1 : cfg.copyOnce = true) (h2 : st.copied = true) :
    hook cfg env st = { trace := [], result := .ok (), state := st } := by
  simp [hook, h1, h2]

/-- A non-skipped invocation runs the body and sets `copied` when the body
does not throw. -/
theorem hook_run (cfg : Config) (env : Env) (st : HookState)
    (h : (cfg.copyOnce && st.copied) = false) :
    (hook cfg env st).trace = (hookBody cfg env st.rest).trace ∧
    (hook cfg env st).result = (hookBody cfg env st.rest).result ∧
    (hook cfg env st).state.rest = (hookBody cfg env st.rest).rest ∧
    (hook cfg env st).state.copied
      = (match (hookBody cfg env st.rest).result with
        | .error _ => st.copied
        | .ok _ => true) := by
  unfold hook
  simp only [h, Bool.false_eq_true, if_false]
  cases hb : (hookBody cfg env st.rest).result with
  | error e => exact ⟨rfl, rfl, rfl, rfl⟩
  | ok u => exact ⟨rfl, rfl, rfl, rfl⟩

/-- An invocation that is skipped or whose resolution throws leaves the
state of the plugin instance as it was. -/
theorem hook_of_resolve_error (cfg : Config) (env : Env) (st : HookState) (e : Err)
    (hrun : (cfg.copyOnce && st.copied) = false)
    (h : (resolveTargets st.rest env cfg.targets []).result = .error e) :
    hook cfg env st = ⟨(resolveTargets st.rest env cfg.targets []).trace, .error e, st⟩ := by
  unfold hook
  simp only [hrun, Bool.false_eq_true, if_false, hookBody_of_resolve_error cfg env st.rest e h]

/-- C5: with `copyOnce` true, once an invocation has completed without error
the latch is set and every later invocation is a full skip: it makes no call
at all, does not throw and leaves the state as it is, whatever the targets
(valid or not) and whatever the filesystem at that time.  With `copyOnce`
false an invocation runs the whole body whatever the latch. -/
theorem copyOnce_latch (cfg : Config) (env : Env) (st : HookState) :
    (cfg.copyOnce = true → (hook cfg env st).result = .ok () →
      (hook cfg env st).state.copied = true ∧
      (∀ (targets2 : List Target) (env2 : Env),
        hook { cfg with targets := targets2 } env2 (hook cfg env st).state
          = { trace := [], result := .ok (), state := (hook cfg env st).state }) ∧
      (∀ envs : List Env, ∀ o ∈ invokeAll cfg (hook cfg env st).state envs,
        o.trace = [] ∧ o.result = .ok () ∧ o.state.copied = true ∧
          o.state = (hook cfg env st).state)) ∧
    (cfg.copyOnce = false →
      (hook cfg env st).trace = (hookBody cfg env st.rest).trace ∧
      (hook cfg env st).result = (hookBody cfg env st.rest).result) := by
  constructor
  · intro hc hok
    have hcopied : (hook cfg env st).state.copied = true := by
      by_cases hs : st.copied = true
      · rw [hook_skip cfg env st hc hs]; exact hs
      · have hrun : (cfg.copyOnce && st.copied) = false := by simp [hs]
        obtain ⟨_, hres, _, hstate⟩ := hook_run cfg env st hrun
        rw [hres] at hok
        rw [hstate, hok]
    refine ⟨hcopied, fun targets2 env2 => hook_skip _ env2 _ hc hcopied, ?_⟩
    generalize (hook cfg env st).state = s at hcopied
    intro envs
    induction envs with
    | nil => intro o ho; simp [invokeAll] at ho
    | cons e later ih =>
      intro o ho
      simp only [invokeAll, List.mem_cons] at ho
      have hskip := hook_skip cfg e s hc hcopied
      rcases ho with rfl | ho
      · rw [hskip]; exact ⟨rfl, rfl, hcopied, rfl⟩
      · rw [hskip] at ho
        exact ih o ho
  · intro hc
    have hrun : (cfg.copyOnce && st.copied) = false := by simp [hc]
    exact ⟨(hook_run cfg env st hrun).1, (hook_run cfg env st hrun).2.1⟩

/-- C5, witness: with `copyOnce` true the first invocation copies the two
matched files; the second, on a filesystem where a third file matches, makes
no call at all, while a fresh plugin instance on that filesystem copies the
three files. -/
theorem copyOnce_latch_witness :
    (hook onceConfig sampleEnv (.initial onceConfig)).result = .ok () ∧
    (hook onceConfig sampleEnv (.initial onceConfig)).trace.filter Event.isWrite
      = [.copy "assets/a.txt" "out/a.txt" [],
         .copy "assets/b.txt" "out/b.txt"
           [("clobber", .prim (.bool true)), ("overwrite", .prim (.bool true))]] ∧
    (hook onceConfig changedEnv (hook onceConfig sampleEnv (.initial onceConfig)).state).trace
      = [] ∧
    (hook onceConfig changedEnv (.initial onceConfig)).trace.filter Event.isWrite
      = [.copy "assets/a.txt" "out/a.txt" [],
         .copy "assets/b.txt" "out/b.txt"
           [("clobber", .prim (.bool true)), ("overwrite", .prim (.bool true))],
         .copy "assets/c.txt" "out/c.txt"
           [("clobber", .prim (.bool true)), ("overwrite", .prim (.bool true))]] :=
  ⟨by decide, by decide,
   congrArg Outcome.trace
    (((copyOnce_latch onceConfig sampleEnv (.initial onceConfig)).1 rfl (by decide)).2.1
      onceConfig.targets changedEnv),
   by decide⟩

/-- C10: if some target is invalid, whatever its position, an invocation that
starts with the latch false throws, calls neither `fs.copy` nor
`fs.outputFile`, and leaves the latch false; so does every invocation of a
plugin instance, from its creation on. -/
theorem invalid_target_nothing_written (cfg : Config)
    (hinv : ∃ t ∈ cfg.targets, invalid t = true) :
    (∀ (env : Env) (st : HookState), st.copied = false →
      (∃ e, (hook cfg env st).result = .error e) ∧
      (hook cfg env st).trace.filter Event.isWrite = [] ∧
      (hook cfg env st).state.copied = false) ∧
    (∀ envs : List Env, ∀ o ∈ invokeAll cfg (.initial cfg) envs,
      (∃ e, o.result = .error e) ∧ o.trace.filter Event.isWrite = [] ∧
      o.state.copied = false) := by
  have one : ∀ (env : Env) (st : HookState), st.copied = false →
      (∃ e, (hook cfg env st).result = .error e) ∧
      (hook cfg env st).trace.filter Event.isWrite = [] ∧
      (hook cfg env st).state = st := by
    intro env st hst
    have hrun : (cfg.copyOnce && st.copied) = false := by simp [hst]
    obtain ⟨e, he⟩ := resolveTargets_error_of_invalid st.rest env cfg.targets [] hinv
    rw [hook_of_resolve_error cfg env st e hrun he]
    exact ⟨⟨e, rfl⟩, resolveTargets_no_write st.rest env cfg.targets [], rfl⟩
  refine ⟨fun env st hst => ⟨(one env st hst).1, (one env st hst).2.1, ?_⟩, ?_⟩
  · rw [(one env st hst).2.2]; exact hst
  · have gen : ∀ (envs : List Env) (s : HookState), s.copied = false →
        ∀ o ∈ invokeAll cfg s envs,
          (∃ e, o.result = .error e) ∧ o.trace.filter Event.isWrite = [] ∧
          o.state.copied = false := by
      intro envs
      induction envs with
      | nil => intro s _ o ho; simp [invokeAll] at ho
      | cons env later ih =>
        intro s hs o ho
        simp only [invokeAll, List.mem_cons] at ho
        have h1 := one env s hs
        rcases ho with rfl | ho
        · exact ⟨h1.1, h1.2.1, by rw [h1.2.2]; exact hs⟩
        · rw [h1.2.2] at ho
          exact ih s hs o ho
    exact fun envs => gen envs (.initial cfg) rfl

/-- C10, witness: a valid descriptor followed by `{ dest: 'out' }`: the
invocation throws the configuration error, no copy or write is made although
the first descriptor matched two files, and the latch stays false. -/
theorem invalid_target_nothing_written_witness :
    (∃ t ∈ validThenInvalid.targets, invalid t = true) ∧
    (hook validThenInvalid sampleEnv (.initial validThenInvalid)).result
      = .error (.config "[Object] target must have \"src\" and \"dest\" properties") ∧
    (hook validThenInvalid sampleEnv (.initial validThenInvalid)).trace.filter Event.isWrite
      = [] ∧
    (hook validThenInvalid sampleEnv (.initial validThenInvalid)).state.copied = false :=
  ⟨⟨_, List.mem_cons_of_mem _ (List.mem_singleton.2 rfl), rfl⟩,
   by decide,
   ((invalid_target_nothing_written validThenInvalid
      ⟨_, List.mem_cons_of_mem _ (List.mem_singleton.2 rfl), rfl⟩).1
      sampleEnv (.initial validThenInvalid) rfl).2.1,
   by decide⟩

/-- C7 (amended): when the targets are `pre`, then an invalid target, then
`post`, a non-skipped invocation makes exactly the calls of the resolution
loop over `pre` and throws: if that loop throws, its error, otherwise a
configuration error.  So `globby` is called for no descriptor at or after the
invalid one, while the descriptors before it are matched, in order, until one
of them fails: all of them when none fails. -/
theorem invalid_stops_resolution (cfg : Config) (env : Env) (st : HookState)
    (pre post : List Target) (bad : Target)
    (htargets : cfg.targets = pre ++ bad :: post) (hbad : invalid bad = true)
    (hrun : (cfg.copyOnce && st.copied) = false) :
    (hook cfg env st).trace = (resolveTargets st.rest env pre []).trace ∧
    (∃ e, (hook cfg env st).result = .error e) ∧
    (hook cfg env st).trace.filter Event.isGlob
      <+: (descriptors pre).map (globEvent st.rest) ∧
    (∀ out, (resolveTargets st.rest env pre []).result = .ok out →
      (∃ msg, (hook cfg env st).result = .error (.config msg)) ∧
      (hook cfg env st).trace.filter Event.isGlob
        = (descriptors pre).map (globEvent st.rest)) := by
  have hstop := resolveTargets_stops_at_invalid st.rest env pre post bad [] hbad
  rw [← htargets] at hstop
  obtain ⟨e, he⟩ := resolveTargets_error_of_invalid st.rest env cfg.targets []
    ⟨bad, by rw [htargets]; simp, hbad⟩
  have hh := hook_of_resolve_error cfg env st e hrun he
  have htrace : (hook cfg env st).trace = (resolveTargets st.rest env pre []).trace := by
    rw [hh]; exact hstop.1
  refine ⟨htrace, ⟨e, by rw [hh]⟩, ?_, ?_⟩
  · rw [htrace]; exact (resolveTargets_glob_calls st.rest env pre []).1
  · intro out hout
    obtain ⟨msg, hm⟩ := hstop.2.2 out hout
    refine ⟨⟨msg, ?_⟩, ?_⟩
    · have hem : e = .config msg := Except.error.inj (he.symm.trans hm)
      rw [hh, hem]
    · rw [htrace]; exact (resolveTargets_glob_calls st.rest env pre []).2 out hout

/-- C7, witness: with `{ dest: 'out' }` listed first, the invocation throws
the configuration error without calling `globby` for the valid descriptor
listed after it. -/
theorem invalid_stops_resolution_witness :
    invalidThenValid.targets
      = [] ++ .plain { dest := .prim (.str "out") }
        :: [.plain { src := .prim (.str "assets/*"), dest := .prim (.str "out") }] ∧
    invalid (.plain { dest := .prim (.str "out") }) = true ∧
    (hook invalidThenValid sampleEnv (.initial invalidThenValid)).trace = [] ∧
    (hook invalidThenValid sampleEnv (.initial invalidThenValid)).result
      = .error (.config "[Object] target must have \"src\" and \"dest\" properties") :=
  ⟨rfl, rfl,
   (invalid_stops_resolution invalidThenValid sampleEnv (.initial invalidThenValid)
      [] _ _ rfl rfl rfl).1,
   by decide⟩

/-- C7, counterexample: with the valid descriptor listed before
`{ dest: 'out' }`, `globby` is called for the valid descriptor before the
invocation throws the configuration error. -/
theorem glob_called_before_invalid :
    invalid (.plain { dest := .prim (.str "out") }) = true ∧
    (hook validThenInvalid sampleEnv (.initial validThenInvalid)).trace
      = [.globby (.prim (.str "assets/*"))
          [("expandDirectories", .prim (.bool false)), ("onlyFiles", .prim (.bool false))]] ∧
    (hook validThenInvalid sampleEnv (.initial validThenInvalid)).result
      = .error (.config "[Object] target must have \"src\" and \"dest\" properties") := by
  decide

/-- C4, failing input: the transform answers the empty string for the regular
file `assets/a.txt`.  The operation handed to the executor has the non-null
`contents` `''`, and the executor calls `fs.copy` on the source instead of
writing the contents with `fs.outputFile`. -/
theorem empty_transform_result_is_copied :
    (resolveTargets emptyTransformConfig.rest sampleEnv emptyTransformConfig.targets []).result
      = .ok [⟨"assets/a.txt", "out/a.txt", .prim (.str "")⟩] ∧
    (JsVal.prim (.str "")).isNull = false ∧
    (hook emptyTransformConfig sampleEnv (.initial emptyTransformConfig)).trace.filter
        Event.isWrite
      = [.copy "assets/a.txt" "out/a.txt" []] ∧
    (hook emptyTransformConfig sampleEnv (.initial emptyTransformConfig)).result = .ok () := by
  decide

/-! ## Option bags -/

theorem getKey_setKey (o : Options) (k k2 : String) (v : JsVal) :
    getKey (setKey o k v) k2 = if k = k2 then some v else getKey o k2 := by
  induction o with
  | nil =>
    by_cases h : k = k2 <;> simp [setKey, getKey, h]
  | cons kv rest ih =>
    obtain ⟨k1, v1⟩ := kv
    by_cases h1 : k1 = k
    · subst h1
      by_cases h : k1 = k2 <;> simp [setKey, getKey, h]
    · by_cases h2 : k1 = k2
      · subst h2
        have hne : ¬ k = k1 := fun h => h1 h.symm
        simp [setKey, getKey, h1, hne]
      · have ih2 := ih
        simp only [getKey] at ih2
        simp only [setKey, h1, if_false, getKey, List.find?_cons, h2, decide_False, ih2]

theorem getKey_spread_of_not_mem (base extra : Options) (k : String)
    (h : k ∉ extra.map Prod.fst) :
    getKey (spread base extra) k = getKey base k := by
  induction extra generalizing base with
  | nil => rfl
  | cons kv rest ih =>
    simp only [List.map_cons, List.mem_cons, not_or] at h
    have hstep : spread base (kv :: rest) = spread (setKey base kv.1 kv.2) rest := rfl
    rw [hstep, ih _ h.2, getKey_setKey]
    have hne : ¬ kv.1 = k := fun heq => h.1 heq.symm
    simp [hne]

theorem getKey_spread_of_mem (base extra : Options) (k : String) (v : JsVal)
    (hnd : (extra.map Prod.fst).Nodup) (h : (k, v) ∈ extra) :
    getKey (spread base extra) k = some v := by
  induction extra generalizing base with
  | nil => simp at h
  | cons kv rest ih =>
    have hstep : spread base (kv :: rest) = spread (setKey base kv.1 kv.2) rest := rfl
    simp only [List.map_cons, List.nodup_cons] at hnd
    rw [hstep]
    rcases List.mem_cons.1 h with heq | hmem
    · subst heq
      rw [getKey_spread_of_not_mem _ _ _ hnd.1, getKey_setKey]
      simp
    · exact ih _ hnd.2 hmem

/-! ## The calls of an invocation -/

theorem mem_descriptors (ts : List Target) (d : Descriptor) (h : d ∈ descriptors ts) :
    Target.plain d ∈ ts := by
  induction ts with
  | nil => simp [descriptors] at h
  | cons t more ih =>
    cases t with
    | other shown =>
      simp only [descriptors] at h
      exact List.mem_cons_of_mem _ (ih h)
    | plain d2 =>
      simp only [descriptors, List.mem_cons] at h
      rcases h with rfl | h
      · exact List.mem_cons_self _ _
      · exact List.mem_cons_of_mem _ (ih h)

/-- The calls of `fs.copy` and `fs.outputFile` made by an invocation pass the
object `restPluginOptions` along, from its content before the invocation to
its content after; the calls of `globby` are those of the descriptors, in
order, with that object as it is before the invocation. -/
theorem hook_calls (cfg : Config) (env : Env) (st : HookState) :
    OptionsChain env st.rest ((hook cfg env st).trace.filter Event.isWrite)
      (hook cfg env st).state.rest ∧
    (hook cfg env st).trace.filter Event.isGlob
      <+: (descriptors cfg.targets).map (globEvent st.rest) := by
  by_cases hrun : (cfg.copyOnce && st.copied) = false
  · have hnw := resolveTargets_no_write st.rest env cfg.targets []
    have hg := resolveTargets_glob_calls st.rest env cfg.targets []
    cases hr : (resolveTargets st.rest env cfg.targets []).result with
    | error e =>
      rw [hook_of_resolve_error cfg env st e hrun hr]
      refine ⟨?_, hg.1⟩
      show OptionsChain env st.rest
        ((resolveTargets st.rest env cfg.targets []).trace.filter Event.isWrite) st.rest
      rw [hnw]
      rfl
    | ok ops =>
      obtain ⟨htr, _, hrest, _⟩ := hook_run cfg env st hrun
      rw [htr, hrest, hookBody_of_resolve_ok cfg env st.rest ops hr]
      have hex := execute_writes cfg env st.rest ops
      simp only [List.filter_append, hnw, List.nil_append, hex.2.1, List.append_nil]
      exact ⟨hex.2.2.1, hg.1⟩
  · have h1 : cfg.copyOnce = true := by
      cases h : cfg.copyOnce
      · simp [h] at hrun
      · rfl
    have h2 : st.copied = true := by
      cases h : st.copied
      · simp [h] at hrun
      · rfl
    rw [hook_skip cfg env st h1 h2]
    exact ⟨rfl, List.nil_prefix⟩

/-- With collaborators that do not write into the options object, every call
of a chain receives the same content. -/
theorem optionsChain_const (env : Env)
    (hcopy : ∀ src dest o, (env.copy src dest o).1 = o)
    (hout : ∀ dest contents o, (env.outputFile dest contents o).1 = o)
    (start final : Options) (evs : List Event) (h : OptionsChain env start evs final) :
    (∀ ev ∈ evs, ev.writeOptions = some start) ∧ final = start := by
  induction evs generalizing start with
  | nil => exact ⟨fun ev hev => by simp at hev, h⟩
  | cons ev more ih =>
    obtain ⟨hopt, next, hnext, hmore⟩ := h
    have hsame : next = start := by
      cases ev with
      | copy s d o =>
        simp only [Event.writeOptions, Option.some.injEq] at hopt
        simp only [Event.optionsAfter, Option.some.injEq, hcopy] at hnext
        rw [← hnext, hopt]
      | outputFile d c o =>
        simp only [Event.writeOptions, Option.some.injEq] at hopt
        simp only [Event.optionsAfter, Option.some.injEq, hout] at hnext
        rw [← hnext, hopt]
      | globby a b => simp [Event.writeOptions] at hopt
      | lstat a => simp [Event.writeOptions] at hopt
      | readFile a => simp [Event.writeOptions] at hopt
      | log a => simp [Event.writeOptions] at hopt
    rw [hsame] at hmore
    obtain ⟨hall, hfinal⟩ := ih start hmore
    refine ⟨fun e he => ?_, hfinal⟩
    rcases List.mem_cons.1 he with rfl | he
    · exact hopt
    · exact hall e he

theorem writeOptions_isWrite (ev : Event) (o : Options) (h : ev.writeOptions = some o) :
    ev.isWrite = true := by
  cases ev <;> simp [Event.writeOptions] at h <;> rfl

/-- C8 (amended): in every invocation the calls of `fs.copy` and
`fs.outputFile` all receive the one plugin-level options object
`restPluginOptions`: the first call with the content the object has when the
invocation starts (the plugin-level extra options, for the first invocation
of a plugin instance), every later call with what the call before it left in
it, and the state keeps what the last call left.  With collaborators that do
not write into their options, every call receives exactly the plugin-level
extra options.  The extra fields of the descriptor are never passed to these
calls; they are merged over the content of that object, the descriptor winning
on a key collision, only in the options of the `globby` call made for that
descriptor. -/
theorem write_options_are_plugin_level (cfg : Config) (env : Env) (st : HookState) :
    OptionsChain env st.rest ((hook cfg env st).trace.filter Event.isWrite)
      (hook cfg env st).state.rest ∧
    ((∀ src dest o, (env.copy src dest o).1 = o) →
      (∀ dest contents o, (env.outputFile dest contents o).1 = o) →
      (∀ ev ∈ (hook cfg env st).trace, ∀ o, ev.writeOptions = some o → o = st.rest) ∧
        (hook cfg env st).state.rest = st.rest) ∧
    (∀ ev ∈ (hook cfg env st).trace, ev.isGlob = true →
      ∃ d, Target.plain d ∈ cfg.targets ∧ ev = .globby d.src (globOptions st.rest d)) ∧
    (∀ (d : Descriptor) (k : String) (v : JsVal),
      (d.rest.map Prod.fst).Nodup → (k, v) ∈ d.rest →
      getKey (globOptions st.rest d) k = some v) ∧
    (∀ (d : Descriptor) (k : String) (v : JsVal), k ∉ d.rest.map Prod.fst →
      (st.rest.map Prod.fst).Nodup → (k, v) ∈ st.rest →
      getKey (globOptions st.rest d) k = some v) := by
  have hc := hook_calls cfg env st
  refine ⟨hc.1, ?_, ?_, ?_, ?_⟩
  · intro hcopy hout
    obtain ⟨hall, hfinal⟩ := optionsChain_const env hcopy hout _ _ _ hc.1
    refine ⟨fun ev hev o ho => ?_, hfinal⟩
    have hmem : ev ∈ (hook cfg env st).trace.filter Event.isWrite :=
      List.mem_filter.2 ⟨hev, writeOptions_isWrite ev o ho⟩
    rw [hall ev hmem] at ho
    exact (Option.some.inj ho).symm
  · intro ev hev hg
    have hmem : ev ∈ (hook cfg env st).trace.filter Event.isGlob :=
      List.mem_filter.2 ⟨hev, hg⟩
    obtain ⟨d, hd, rfl⟩ := List.mem_map.1 (hc.2.subset hmem)
    exact ⟨d, mem_descriptors _ _ hd, rfl⟩
  · intro d k v hnd hmem
    exact getKey_spread_of_mem _ _ k v hnd hmem
  · intro d k v hk hnd hmem
    unfold globOptions
    rw [getKey_spread_of_not_mem _ _ _ hk]
    exact getKey_spread_of_mem _ _ k v hnd hmem

/-- C8, witness: one descriptor matching two files, no plugin-level extra
option, `fs.copy` writing `clobber` and `overwrite` into its options: the
first call receives the empty object, the second the object as the first
call left it, and the state keeps it. -/
theorem write_options_are_plugin_level_witness :
    (hook twoFilesConfig sampleEnv (.initial twoFilesConfig)).trace.filter Event.isWrite
      = [.copy "assets/a.txt" "out/a.txt" [],
         .copy "assets/b.txt" "out/b.txt"
           [("clobber", .prim (.bool true)), ("overwrite", .prim (.bool true))]] ∧
    OptionsChain sampleEnv (HookState.initial twoFilesConfig).rest
      ((hook twoFilesConfig sampleEnv (.initial twoFilesConfig)).trace.filter Event.isWrite)
      (hook twoFilesConfig sampleEnv (.initial twoFilesConfig)).state.rest ∧
    (hook twoFilesConfig sampleEnv (.initial twoFilesConfig)).state.rest
      = [("clobber", .prim (.bool true)), ("overwrite", .prim (.bool true))] :=
  ⟨by decide,
   (write_options_are_plugin_level twoFilesConfig sampleEnv (.initial twoFilesConfig)).1,
   by decide⟩

/-- C8, counterexample: the plugin says `overwrite: false`, the descriptor
says `overwrite: true`.  The merge of the two, descriptor first in
precedence, says `overwrite: true`, yet the one executed operation calls
`fs.copy` with `overwrite: false`. -/
theorem copy_ignores_descriptor_options :
    (hook overwriteConfig sampleEnv (.initial overwriteConfig)).trace
      = [.globby (.prim (.str "assets/a.txt"))
          [("expandDirectories", .prim (.bool false)), ("onlyFiles", .prim (.bool false)),
           ("overwrite", .prim (.bool true))],
         .copy "assets/a.txt" "out/a.txt" [("overwrite", .prim (.bool false))]] ∧
    spread overwriteConfig.rest [("overwrite", .prim (.bool true))]
      = [("overwrite", .prim (.bool true))] ∧
    spread overwriteConfig.rest [("overwrite", .prim (.bool true))]
      ≠ [("overwrite", .prim (.bool false))] := by
  decide

/-! ## Invocations whose collaborators do not fail -/

theorem transformContents_total (env : Env) (p : String) (transform : Field TransformFn)
    (hl : ∀ p, ∃ kind, env.lstat p = .ok kind) (hr : ∀ p, ∃ bytes, env.readFile p = .ok bytes)
    (hf : ∀ f, transform = .func f → ∀ bytes, ∃ c, f bytes = .ok c)
    (hv : ∀ v, transform = .value v → v.truthy = false) :
    ∃ c, (transformContents env p transform).result = .ok c := by
  cases transform with
  | value v =>
    rw [transformContents_falsy env p _ (by simpa [Field.truthy] using hv v rfl)]
    exact ⟨_, rfl⟩
  | func f =>
    obtain ⟨kind, hk⟩ := hl p
    cases hkd : kind.isDirectory with
    | true =>
      have hdir : kind = .directory := by cases kind <;> simp [FileKind.isDirectory] at hkd ⊢
      rw [hdir] at hk
      rw [transformContents_directory env p (.func f) rfl hk]
      exact ⟨_, rfl⟩
    | false =>
      obtain ⟨bytes, hb⟩ := hr p
      obtain ⟨c, hc⟩ := hf f rfl bytes
      rw [transformContents_file env p (.func f) kind bytes rfl hk hkd hb]
      exact ⟨c, by simp [callTransform, hc, Except.mapError]⟩

theorem destinationPath_total (env : Env) (p : String) (dest : JsVal)
    (rename : Field RenameFn)
    (hvalid : (rename.truthy && !rename.isString && !rename.isFunction) = false)
    (hf : ∀ f, rename = .func f → ∀ name ext, ∃ s, f name ext = .ok (.prim (.str s)))
    (hd : dest.isString = true) :
    ∃ target, destinationPath env p dest rename = .ok target := by
  have hname : ∃ s, finalName env (env.path.basename p) rename = .ok (.prim (.str s)) := by
    unfold finalName
    by_cases ht : rename.truthy = true
    · rw [if_pos ht]
      cases rename with
      | func f =>
        obtain ⟨s, hs⟩ := hf f rfl (env.path.parse (env.path.basename p)).name
          (replaceDot (env.path.parse (env.path.basename p)).ext)
        exact ⟨s, by simp [renameTarget, callRename, hs, Except.mapError]⟩
      | value v =>
        have ht2 : v.truthy = true := ht
        have hv2 : (v.truthy && !v.isString && !false) = false := hvalid
        cases hs : v.isString with
        | false => rw [ht2, hs] at hv2; exact absurd hv2 (by decide)
        | true =>
          cases v with
          | arr xs => simp [JsVal.isString] at hs
          | prim q =>
            cases q with
            | str s => exact ⟨s, by simp [renameTarget]⟩
            | _ => simp [JsVal.isString] at hs
    · rw [if_neg ht]
      exact ⟨_, rfl⟩
  obtain ⟨s, hs⟩ := hname
  cases dest with
  | arr xs => simp [JsVal.isString] at hd
  | prim q =>
    cases q with
    | str x => exact ⟨env.path.join x s, by simp [destinationPath, hs, pathJoin]⟩
    | _ => simp [JsVal.isString] at hd

theorem mem_destinationList_arr (xs : List Prim) (x : Prim) (h : x ∈ xs) :
    JsVal.prim x ∈ destinationList (.arr xs) := by
  simp only [destinationList, List.mem_map]
  exact ⟨x, h, rfl⟩

theorem mapDestinations_total (env : Env) (p : String) (rename : Field RenameFn)
    (transform : Field TransformFn) (xs : List Prim)
    (h : ∀ x ∈ xs, ∃ op, (generateCopyTarget env p (.prim x) rename transform).result = .ok op) :
    ∃ ops, (mapDestinations env p rename transform xs).result = .ok ops := by
  induction xs with
  | nil => exact ⟨[], rfl⟩
  | cons x more ih =>
    obtain ⟨op, hop⟩ := h x (List.mem_cons_self _ _)
    obtain ⟨ops, hops⟩ := ih (fun y hy => h y (List.mem_cons_of_mem _ hy))
    refine ⟨op :: ops, ?_⟩
    simp only [mapDestinations, Eff.bind_eq]
    rw [Eff.andThen_ok _ _ op hop, Eff.andThen_ok _ _ ops hops]
    rfl

theorem generatedCopyTargets_total (env : Env) (p : String) (d : Descriptor)
    (h : ∀ x ∈ destinationList d.dest,
      ∃ op, (generateCopyTarget env p x d.rename d.transform).result = .ok op) :
    ∃ ops, (generatedCopyTargets env p d).result = .ok ops := by
  unfold generatedCopyTargets
  split
  · rename_i xs hxs
    rw [hxs] at h
    exact mapDestinations_total env p _ _ xs
      (fun x hx => h _ (mem_destinationList_arr xs x hx))
  · rename_i dest hdest
    have hl : destinationList d.dest = [d.dest] := by
      cases hd : d.dest with
      | arr xs => exact absurd hd (hdest xs)
      | prim q => rfl
    obtain ⟨op, hop⟩ := h d.dest (by rw [hl]; exact List.mem_singleton.2 rfl)
    refine ⟨[op], ?_⟩
    simp only [Eff.bind_eq]
    rw [Eff.andThen_ok _ _ op hop]
    rfl

theorem forEachMatched_total (env : Env) (d : Descriptor) (ps : List String)
    (acc : List CopyTarget)
    (h : ∀ p, ∀ x ∈ destinationList d.dest,
      ∃ op, (generateCopyTarget env p x d.rename d.transform).result = .ok op) :
    ∃ out, (forEachMatched env d ps acc).result = .ok out := by
  induction ps generalizing acc with
  | nil => exact ⟨acc, rfl⟩
  | cons p more ih =>
    obtain ⟨ops, hops⟩ := generatedCopyTargets_total env p d (h p)
    obtain ⟨out, hout⟩ := ih (acc ++ ops)
    refine ⟨out, ?_⟩
    simp only [forEachMatched, Eff.bind_eq]
    rw [Eff.andThen_ok _ _ ops hops]
    exact hout

theorem invalid_plain_false (d : Descriptor) (h : invalid (.plain d) = false) :
    (d.rename.truthy && !d.rename.isString && !d.rename.isFunction) = false := by
  cases h2 : (d.rename.truthy && !d.rename.isString && !d.rename.isFunction)
  · rfl
  · simp [invalid, h2] at h

/-- With collaborators that do not fail and well-typed descriptors, the
operation of every triple of a valid descriptor resolves. -/
theorem generateCopyTarget_total (cfg : Config) (env : Env) (hrel : Reliable cfg env)
    (htyped : WellTyped cfg)
    (d : Descriptor) (hd : Target.plain d ∈ cfg.targets) (hv : invalid (.plain d) = false)
    (p : String) (x : JsVal) (hx : x ∈ destinationList d.dest) :
    ∃ op, (generateCopyTarget env p x d.rename d.transform).result = .ok op := by
  obtain ⟨c, hc⟩ := transformContents_total env p d.transform hrel.lstat hrel.readFile
    (hrel.transform d hd) (htyped.transform d hd hv)
  have hrename : ∀ f, d.rename = .func f →
      ∀ name ext, ∃ s, f name ext = .ok (.prim (.str s)) := by
    intro f hf name ext
    obtain ⟨v, hvres⟩ := hrel.rename d hd f hf name ext
    have hs := htyped.rename d hd hv f hf name ext v hvres
    cases v with
    | arr xs => simp [JsVal.isString] at hs
    | prim q =>
      cases q with
      | str s => exact ⟨s, hvres⟩
      | _ => simp [JsVal.isString] at hs
  obtain ⟨target, ht⟩ := destinationPath_total env p x d.rename (invalid_plain_false d hv)
    hrename (htyped.dest d hd hv x hx)
  exact ⟨_, (generateCopyTarget_of_destination env p x d.rename d.transform target ht).2 c hc⟩

/-- With collaborators that do not fail and well-typed descriptors, the
resolution loop over valid targets completes. -/
theorem resolveTargets_total (cfg : Config) (env : Env) (hrel : Reliable cfg env)
    (htyped : WellTyped cfg) (rest : Options)
    (ts : List Target) (acc : List CopyTarget)
    (hsub : ∀ t ∈ ts, t ∈ cfg.targets) (hvalid : ∀ t ∈ ts, invalid t = false) :
    ∃ out, (resolveTargets rest env ts acc).result = .ok out := by
  induction ts generalizing acc with
  | nil => exact ⟨acc, rfl⟩
  | cons t more ih =>
    have hv := hvalid t (List.mem_cons_self _ _)
    cases t with
    | other shown => simp [invalid] at hv
    | plain d =>
      have hd := hsub _ (List.mem_cons_self _ _)
      obtain ⟨ps, hps⟩ := hrel.globby d.src (globOptions rest d)
      obtain ⟨acc2, hacc2⟩ := forEachMatched_total env d ps acc
        (fun p x hx => generateCopyTarget_total cfg env hrel htyped d hd hv p x hx)
      obtain ⟨out, hout⟩ := ih acc2 (fun t ht => hsub t (List.mem_cons_of_mem _ ht))
        (fun t ht => hvalid t (List.mem_cons_of_mem _ ht))
      refine ⟨out, ?_⟩
      rw [resolveTargets_cons_valid rest env d more acc hv]
      have hcall : (Eff.call (globEvent rest d) (env.globby d.src (globOptions rest d))).result
          = .ok ps := by simp [Eff.call, hps, Except.mapError]
      rw [Eff.andThen_ok _ _ ps hcall, Eff.andThen_ok _ _ acc2 hacc2]
      exact hout

/-- With `fs.copy` and `fs.outputFile` that do not fail, the executor
completes. -/
theorem execute_total (cfg : Config) (env : Env)
    (hcopy : ∀ src dest options, (env.copy src dest options).2 = .ok ())
    (hout : ∀ dest contents options, (env.outputFile dest contents options).2 = .ok ())
    (rest : Options) (ops : List CopyTarget) :
    (execute cfg env rest ops).result = .ok () := by
  have hone : ∀ rest t, (executeOne cfg env rest t).result = .ok () := by
    intro rest t
    have hcall : (writeCall env rest t).2.2 = .ok () := by
      unfold writeCall
      split
      · exact hout _ _ _
      · exact hcopy _ _ _
    unfold executeOne
    simp only [hcall]
  have hall : ∀ rest, (executeAll cfg env rest ops).result = .ok () := by
    induction ops with
    | nil => intro rest; rfl
    | cons t more ih =>
      intro rest
      rw [(executeAll_cons cfg env rest t more).2 (hone rest t)]
      exact ih _
  unfold execute
  by_cases hl : ops.length ≠ 0
  · rw [if_pos hl]; exact hall rest
  · rw [if_neg hl]

/-- With collaborators that do not fail and well-typed descriptors, a
non-skipped invocation over valid targets completes. -/
theorem hook_total (cfg : Config) (env : Env) (st : HookState) (hrel : Reliable cfg env)
    (htyped : WellTyped cfg)
    (hrun : (cfg.copyOnce && st.copied) = false)
    (hvalid : ∀ t ∈ cfg.targets, invalid t = false) :
    (hook cfg env st).result = .ok () := by
  obtain ⟨ops, hops⟩ := resolveTargets_total cfg env hrel htyped st.rest cfg.targets []
    (fun _ h => h) hvalid
  rw [(hook_run cfg env st hrun).2.1, hookBody_of_resolve_ok cfg env st.rest ops hops]
  exact execute_total cfg env hrel.copy hrel.outputFile st.rest ops

/-! ## Where a configuration error comes from -/

theorem Eff.andThen_error_cases {α β : Type} (x : Eff α) (f : α → Eff β) (e : Err)
    (h : (x.andThen f).result = .error e) :
    x.result = .error e ∨ ∃ a, x.result = .ok a ∧ (f a).result = .error e := by
  cases hx : x.result with
  | error e2 =>
    rw [Eff.andThen_error x f e2 hx] at h
    simp only [Except.error.injEq] at h
    exact Or.inl (by rw [h])
  | ok a =>
    rw [Eff.andThen_ok x f a hx] at h
    exact Or.inr ⟨a, rfl, h⟩

theorem mapError_thrown_not_config {α : Type} (r : Except String α) (e : Err)
    (h : r.mapError Err.thrown = .error e) : e.isConfig = false := by
  cases r with
  | error m =>
    simp only [Except.mapError, Except.error.injEq] at h
    rw [← h]; rfl
  | ok a => simp [Except.mapError] at h

theorem transformContents_not_config (env : Env) (src : String)
    (transform : Field TransformFn) (e : Err)
    (h : (transformContents env src transform).result = .error e) : e.isConfig = false := by
  unfold transformContents at h
  by_cases ht : transform.truthy = true
  · simp only [ht, if_true, Eff.bind_eq] at h
    rcases Eff.andThen_error_cases _ _ _ h with h1 | ⟨k, _, h1⟩
    · exact mapError_thrown_not_config _ e h1
    · cases hk : k.isDirectory with
      | true => simp [hk, Eff.andThen, Eff.emit, Eff.pure_eq, Eff.ret] at h1
      | false =>
        rw [hk] at h1
        have h1b : ((Eff.call (Event.readFile src) (env.readFile src)).andThen fun data =>
            Eff.lift (callTransform transform data)).result = .error e := h1
        rcases Eff.andThen_error_cases _ _ _ h1b with h2 | ⟨bytes, _, h2⟩
        · exact mapError_thrown_not_config _ e h2
        · cases transform with
          | func f => exact mapError_thrown_not_config _ e h2
          | value v =>
            simp only [Eff.lift, callTransform, Except.error.injEq] at h2
            rw [← h2]; rfl
  · simp [ht, Eff.pure_eq, Eff.ret] at h

theorem destinationPath_not_config (env : Env) (p : String) (dest : JsVal)
    (rename : Field RenameFn) (e : Err)
    (h : destinationPath env p dest rename = .error e) : e.isConfig = false := by
  unfold destinationPath at h
  have hcall : ∀ name ext, callRename rename name ext = .error e → e.isConfig = false := by
    intro name ext hc
    cases rename with
    | func f => exact mapError_thrown_not_config _ e hc
    | value v =>
      simp only [callRename, Except.error.injEq] at hc
      rw [← hc]; rfl
  cases hn : finalName env (env.path.basename p) rename with
  | error e2 =>
    rw [hn] at h
    simp only [Except.error.injEq] at h
    subst h
    unfold finalName at hn
    by_cases ht : rename.truthy = true
    · rw [if_pos ht] at hn
      unfold renameTarget at hn
      split at hn
      · cases hn
      · exact hcall _ _ hn
    · rw [if_neg ht] at hn; cases hn
  | ok name =>
    rw [hn] at h
    have h2 : pathJoin env dest name = .error e := h
    unfold pathJoin at h2
    split at h2
    · cases h2
    · simp only [Except.error.injEq] at h2
      rw [← h2]; rfl

theorem generateCopyTarget_not_config (env : Env) (p : String) (dest : JsVal)
    (rename : Field RenameFn) (transform : Field TransformFn) (e : Err)
    (h : (generateCopyTarget env p dest rename transform).result = .error e) :
    e.isConfig = false := by
  rw [generateCopyTarget_eq] at h
  rcases Eff.andThen_error_cases _ _ _ h with h1 | ⟨c, _, h1⟩
  · exact transformContents_not_config env p transform e h1
  · cases hd : destinationPath env p dest rename with
    | error e2 =>
      simp only [Eff.lift, hd, Except.map, Except.error.injEq] at h1
      rw [← h1]
      exact destinationPath_not_config env p dest rename e2 hd
    | ok target => simp [Eff.lift, hd, Except.map] at h1

theorem mapDestinations_not_config (env : Env) (p : String) (rename : Field RenameFn)
    (transform : Field TransformFn) (xs : List Prim) (e : Err)
    (h : (mapDestinations env p rename transform xs).result = .error e) :
    e.isConfig = false := by
  induction xs with
  | nil => simp [mapDestinations, Eff.pure_eq, Eff.ret] at h
  | cons x more ih =>
    simp only [mapDestinations, Eff.bind_eq] at h
    rcases Eff.andThen_error_cases _ _ _ h with h1 | ⟨t, _, h1⟩
    · exact generateCopyTarget_not_config env p _ rename transform e h1
    · rcases Eff.andThen_error_cases _ _ _ h1 with h2 | ⟨ts, _, h2⟩
      · exact ih h2
      · simp [Eff.pure_eq, Eff.ret] at h2

theorem forEachMatched_not_config (env : Env) (d : Descriptor) (ps : List String)
    (acc : List CopyTarget) (e : Err)
    (h : (forEachMatched env d ps acc).result = .error e) : e.isConfig = false := by
  induction ps generalizing acc with
  | nil => simp [forEachMatched, Eff.pure_eq, Eff.ret] at h
  | cons p more ih =>
    simp only [forEachMatched, Eff.bind_eq] at h
    rcases Eff.andThen_error_cases _ _ _ h with h1 | ⟨gen, _, h1⟩
    · unfold generatedCopyTargets at h1
      split at h1
      · exact mapDestinations_not_config env p _ _ _ e h1
      · simp only [Eff.bind_eq] at h1
        rcases Eff.andThen_error_cases _ _ _ h1 with h2 | ⟨t, _, h2⟩
        · exact generateCopyTarget_not_config env p _ _ _ e h2
        · simp [Eff.pure_eq, Eff.ret] at h2
    · exact ih _ h1

/-- The resolution loop throws a configuration error only at an invalid
target. -/
theorem resolveTargets_config_error (rest : Options) (env : Env) (ts : List Target)
    (acc : List CopyTarget) (e : Err)
    (h : (resolveTargets rest env ts acc).result = .error e) (he : e.isConfig = true) :
    ∃ t ∈ ts, invalid t = true := by
  induction ts generalizing acc with
  | nil => simp [resolveTargets, Eff.pure_eq, Eff.ret] at h
  | cons t more ih =>
    cases hi : invalid t with
    | true => exact ⟨t, List.mem_cons_self _ _, hi⟩
    | false =>
      cases t with
      | other shown => simp [invalid] at hi
      | plain d =>
        rw [resolveTargets_cons_valid rest env d more acc hi] at h
        rcases Eff.andThen_error_cases _ _ _ h with h1 | ⟨ps, _, h1⟩
        · rw [mapError_thrown_not_config _ e h1] at he; cases he
        · rcases Eff.andThen_error_cases _ _ _ h1 with h2 | ⟨acc2, _, h2⟩
          · rw [forEachMatched_not_config env d ps acc e h2] at he; cases he
          · obtain ⟨t, ht, hti⟩ := ih acc2 h2
            exact ⟨t, List.mem_cons_of_mem _ ht, hti⟩

/-- An invocation throws a configuration error only when some target is
invalid, whatever the collaborators do. -/
theorem config_error_only_if_invalid (cfg : Config) (env : Env) (st : HookState)
    (msg : String) (h : (hook cfg env st).result = .error (.config msg)) :
    ∃ t ∈ cfg.targets, invalid t = true := by
  by_cases hrun : (cfg.copyOnce && st.copied) = false
  · rw [(hook_run cfg env st hrun).2.1] at h
    cases hr : (resolveTargets st.rest env cfg.targets []).result with
    | error e =>
      rw [hookBody_of_resolve_error cfg env st.rest e hr] at h
      simp only [Except.error.injEq] at h
      exact resolveTargets_config_error st.rest env cfg.targets [] e hr (by rw [h]; rfl)
    | ok ops =>
      rw [hookBody_of_resolve_ok cfg env st.rest ops hr] at h
      have := (execute_writes cfg env st.rest ops).2.2.2 _ h
      cases this
  · have h1 : cfg.copyOnce = true := by
      cases hc : cfg.copyOnce
      · simp [hc] at hrun
      · rfl
    have h2 : st.copied = true := by
      cases hc : st.copied
      · simp [hc] at hrun
      · rfl
    rw [hook_skip cfg env st h1 h2] at h
    cases h

/-- C6 (amended): assuming the collaborators and the user functions do not
fail and the descriptors that pass the validation are well typed (string
destinations, `rename` functions returning strings, truthy `transform`s
callable), a non-skipped invocation throws a configuration error if and only
if some target is invalid, where a target is invalid exactly when it is not a
plain object, or its `src` or `dest` is not truthy, or its `rename` is truthy
and neither a string nor a function; when no target is invalid the
invocation completes. -/
theorem config_error_iff_invalid (cfg : Config) (env : Env) (st : HookState)
    (hrel : Reliable cfg env) (htyped : WellTyped cfg)
    (hrun : (cfg.copyOnce && st.copied) = false) :
    ((∃ msg, (hook cfg env st).result = .error (.config msg))
      ↔ ∃ t ∈ cfg.targets, invalid t = true) ∧
    ((hook cfg env st).result = .ok () ↔ ∀ t ∈ cfg.targets, invalid t = false) := by
  have hfail : (∃ t ∈ cfg.targets, invalid t = true) →
      ∃ msg, (hook cfg env st).result = .error (.config msg) := by
    intro hinv
    have hfirst : ∃ pre bad post, cfg.targets = pre ++ bad :: post ∧ invalid bad = true ∧
        ∀ t ∈ pre, invalid t = false := by
      generalize cfg.targets = ts at hinv
      induction ts with
      | nil => obtain ⟨t, ht, _⟩ := hinv; simp at ht
      | cons t more ih =>
        cases hi : invalid t with
        | true => exact ⟨[], t, more, rfl, hi, fun _ h => by simp at h⟩
        | false =>
          obtain ⟨t2, ht2, hi2⟩ := hinv
          have hmore : ∃ t ∈ more, invalid t = true := by
            rcases List.mem_cons.1 ht2 with rfl | h
            · rw [hi] at hi2; cases hi2
            · exact ⟨t2, h, hi2⟩
          obtain ⟨pre, bad, post, hsplit, hbad, hpre⟩ := ih hmore
          refine ⟨t :: pre, bad, post, by rw [hsplit]; rfl, hbad, ?_⟩
          intro u hu
          rcases List.mem_cons.1 hu with rfl | h
          · exact hi
          · exact hpre u h
    obtain ⟨pre, bad, post, hsplit, hbad, hpre⟩ := hfirst
    obtain ⟨out, hout⟩ := resolveTargets_total cfg env hrel htyped st.rest pre []
      (fun t ht => by rw [hsplit]; exact List.mem_append_left _ ht) hpre
    obtain ⟨msg, hm⟩ :=
      (resolveTargets_stops_at_invalid st.rest env pre post bad [] hbad).2.2 out hout
    rw [← hsplit] at hm
    exact ⟨msg, by rw [hook_of_resolve_error cfg env st _ hrun hm]⟩
  have hok : (∀ t ∈ cfg.targets, invalid t = false) → (hook cfg env st).result = .ok () :=
    hook_total cfg env st hrel htyped hrun
  refine ⟨⟨fun ⟨msg, hm⟩ => config_error_only_if_invalid cfg env st msg hm, hfail⟩,
    ⟨fun h => ?_, hok⟩⟩
  intro t ht
  cases hi : invalid t with
  | false => rfl
  | true =>
    obtain ⟨msg, hm⟩ := hfail ⟨t, ht, hi⟩
    rw [h] at hm; cases hm

/-- The sample filesystem never fails, so a configuration whose targets hold
no function is reliable on it. -/
theorem sampleEnv_reliable (cfg : Config)
    (hplain : ∀ d, Target.plain d ∈ cfg.targets →
      d.rename.isFunction = false ∧ d.transform.isFunction = false) :
    Reliable cfg sampleEnv where
  globby := by
    intro patterns options
    simp only [sampleEnv]
    split <;> exact ⟨_, rfl⟩
  lstat := by
    intro p
    simp only [sampleEnv]
    split <;> exact ⟨_, rfl⟩
  readFile := fun _ => ⟨_, rfl⟩
  copy := fun _ _ _ => rfl
  outputFile := fun _ _ _ => rfl
  rename := by
    intro d hd f hf
    have h := (hplain d hd).1
    rw [hf] at h
    cases h
  transform := by
    intro d hd f hf
    have h := (hplain d hd).2
    rw [hf] at h
    cases h

/-- C6, witness: on the sample filesystem, where no collaborator fails, the
well-typed targets `{ src: 'assets/*', dest: 'out' }, { dest: 'out' }` make
the invocation throw a configuration error. -/
theorem config_error_iff_invalid_witness :
    Reliable validThenInvalid sampleEnv ∧ WellTyped validThenInvalid ∧
    (validThenInvalid.copyOnce && (HookState.initial validThenInvalid).copied) = false ∧
    (∃ t ∈ validThenInvalid.targets, invalid t = true) ∧
    (∃ msg, (hook validThenInvalid sampleEnv (.initial validThenInvalid)).result
      = .error (.config msg)) :=
  have hmem : ∀ d, Target.plain d ∈ validThenInvalid.targets →
      d = { src := .prim (.str "assets/*"), dest := .prim (.str "out") } ∨
      d = { dest := .prim (.str "out") } := by
    intro d hd
    simpa only [validThenInvalid, List.mem_cons, Target.plain.injEq, List.mem_singleton,
      List.not_mem_nil, or_false] using hd
  have hrel : Reliable validThenInvalid sampleEnv :=
    sampleEnv_reliable validThenInvalid (fun d hd => by
      rcases hmem d hd with rfl | rfl <;> exact ⟨rfl, rfl⟩)
  have htyped : WellTyped validThenInvalid :=
    { dest := fun d hd _ => by rcases hmem d hd with rfl | rfl <;> decide
      rename := fun d hd _ f hf => by rcases hmem d hd with rfl | rfl <;> cases hf
      transform := fun d hd _ v hv => by
        rcases hmem d hd with rfl | rfl <;> (cases hv; rfl) }
  ⟨hrel, htyped, rfl, ⟨_, List.mem_cons_of_mem _ (List.mem_singleton.2 rfl), rfl⟩,
   (config_error_iff_invalid validThenInvalid sampleEnv (.initial validThenInvalid)
      hrel htyped rfl).1.2 ⟨_, List.mem_cons_of_mem _ (List.mem_singleton.2 rfl), rfl⟩⟩

/-- C6, counterexample, on the sample filesystem where no collaborator fails.
The descriptor `{ src: 'assets/a.txt', dest: 'out', rename: 0 }` has a
`rename` that is present and neither a string nor a function, yet the
invocation throws nothing and copies the file under its own name.  And with
`{ src: 'assets/a.txt', dest: 5 }` or `{ ..., transform: 5 }` listed before the
invalid `{ dest: 'out' }`, the invocation throws a `TypeError`, not a
configuration error. -/
theorem spec_invalid_without_config_error :
    (renameZeroConfig.targets
      = [.plain { src := .prim (.str "assets/a.txt"), dest := .prim (.str "out"),
                  rename := .value (.prim (.num 0)) }] ∧
    SpecInvalid (.plain { src := .prim (.str "assets/a.txt"), dest := .prim (.str "out"),
                          rename := .value (.prim (.num 0)) }) ∧
    (hook renameZeroConfig sampleEnv (.initial renameZeroConfig)).result = .ok () ∧
    (hook renameZeroConfig sampleEnv (.initial renameZeroConfig)).trace.filter Event.isWrite
      = [.copy "assets/a.txt" "out/a.txt" []]) ∧
    (Reliable numberDestConfig sampleEnv ∧
    SpecInvalid (.plain { dest := .prim (.str "out") }) ∧
    Target.plain { dest := .prim (.str "out") } ∈ numberDestConfig.targets ∧
    (hook numberDestConfig sampleEnv (.initial numberDestConfig)).result
      = .error (.type "The \"path\" argument must be of type string")) ∧
    (Reliable numberTransformConfig sampleEnv ∧
    Target.plain { dest := .prim (.str "out") } ∈ numberTransformConfig.targets ∧
    (hook numberTransformConfig sampleEnv (.initial numberTransformConfig)).result
      = .error (.type "transform is not a function")) :=
  ⟨⟨rfl, Or.inr (Or.inr ⟨fun h => (by cases h), rfl, rfl⟩), by decide, by decide⟩,
   ⟨sampleEnv_reliable numberDestConfig (fun d hd => by
      simp only [numberDestConfig, List.mem_cons, Target.plain.injEq, List.mem_singleton,
        List.not_mem_nil, or_false] at hd
      rcases hd with rfl | rfl <;> exact ⟨rfl, rfl⟩),
    Or.inl rfl, List.mem_cons_of_mem _ (List.mem_singleton.2 rfl), by decide⟩,
   ⟨sampleEnv_reliable numberTransformConfig (fun d hd => by
      simp only [numberTransformConfig, List.mem_cons, Target.plain.injEq, List.mem_singleton,
        List.not_mem_nil, or_false] at hd
      rcases hd with rfl | rfl <;> exact ⟨rfl, rfl⟩),
    List.mem_cons_of_mem _ (List.mem_singleton.2 rfl), by decide⟩⟩

/-! ## One operation per triple -/

theorem mapDestinations_resolves (env : Env) (p : String) (rename : Field RenameFn)
    (transform : Field TransformFn) (xs : List Prim) (ops : List CopyTarget)
    (h : (mapDestinations env p rename transform xs).result = .ok ops) :
    List.Forall₂
      (fun x op => (generateCopyTarget env p (.prim x) rename transform).result = .ok op)
      xs ops := by
  induction xs generalizing ops with
  | nil =>
    have : ops = [] := by
      simp only [mapDestinations, Eff.pure_eq, Eff.ret, Except.ok.injEq] at h
      exact h.symm
    rw [this]
    exact List.Forall₂.nil
  | cons x more ih =>
    simp only [mapDestinations, Eff.bind_eq] at h
    obtain ⟨op, hop, h2⟩ := Eff.andThen_result_ok _ _ _ h
    obtain ⟨rest, hrest, h3⟩ := Eff.andThen_result_ok _ _ _ h2
    simp only [Eff.pure_eq, Eff.ret, Except.ok.injEq] at h3
    rw [← h3]
    exact List.Forall₂.cons hop (ih rest hrest)

theorem generatedCopyTargets_resolves (env : Env) (p : String) (d : Descriptor)
    (ops : List CopyTarget) (h : (generatedCopyTargets env p d).result = .ok ops) :
    List.Forall₂ (ResolvesTo env) ((destinationList d.dest).map fun dst => (d, p, dst)) ops := by
  unfold generatedCopyTargets at h
  rw [List.forall₂_map_left_iff]
  split at h
  · rename_i xs hxs
    rw [hxs]
    simp only [destinationList]
    rw [List.forall₂_map_left_iff]
    exact mapDestinations_resolves env p _ _ xs ops h
  · rename_i dest hdest
    have hl : destinationList d.dest = [d.dest] := by
      cases hd : d.dest with
      | arr xs => exact absurd hd (hdest xs)
      | prim q => rfl
    simp only [Eff.bind_eq] at h
    obtain ⟨op, hop, h2⟩ := Eff.andThen_result_ok _ _ _ h
    simp only [Eff.pure_eq, Eff.ret, Except.ok.injEq] at h2
    rw [hl, ← h2]
    exact List.Forall₂.cons hop List.Forall₂.nil

theorem forEachMatched_resolves (env : Env) (d : Descriptor) (ps : List String)
    (acc out : List CopyTarget) (h : (forEachMatched env d ps acc).result = .ok out) :
    ∃ ops, out = acc ++ ops ∧
      List.Forall₂ (ResolvesTo env)
        (ps.flatMap fun p => (destinationList d.dest).map fun dst => (d, p, dst)) ops := by
  induction ps generalizing acc with
  | nil =>
    refine ⟨[], ?_, List.Forall₂.nil⟩
    simp only [forEachMatched, Eff.pure_eq, Eff.ret, Except.ok.injEq] at h
    simp [h]
  | cons p more ih =>
    simp only [forEachMatched, Eff.bind_eq] at h
    obtain ⟨gen, hgen, h2⟩ := Eff.andThen_result_ok _ _ _ h
    obtain ⟨ops, hops, hall⟩ := ih (acc ++ gen) h2
    refine ⟨gen ++ ops, by rw [hops, List.append_assoc], ?_⟩
    rw [List.flatMap_cons]
    exact List.rel_append (generatedCopyTargets_resolves env p d gen hgen) hall

/-- A resolution loop that completes met valid targets only and produced, in
order, the operation of every triple. -/
theorem resolveTargets_resolves (rest : Options) (env : Env) (ts : List Target)
    (acc out : List CopyTarget) (h : (resolveTargets rest env ts acc).result = .ok out) :
    (∀ t ∈ ts, invalid t = false) ∧
    ∃ ops, out = acc ++ ops ∧ List.Forall₂ (ResolvesTo env) (allTriples rest env ts) ops := by
  induction ts generalizing acc with
  | nil =>
    refine ⟨fun t ht => by simp at ht, [], ?_, List.Forall₂.nil⟩
    simp only [resolveTargets, Eff.pure_eq, Eff.ret, Except.ok.injEq] at h
    simp [h]
  | cons t more ih =>
    cases hi : invalid t with
    | true =>
      obtain ⟨msg, hm⟩ := resolveTargets_cons_invalid rest env t hi
      rw [hm] at h
      cases h
    | false =>
      cases t with
      | other shown => simp [invalid] at hi
      | plain d =>
        rw [resolveTargets_cons_valid rest env d more acc hi] at h
        obtain ⟨ps, hps, h2⟩ := Eff.andThen_result_ok _ _ _ h
        obtain ⟨acc2, hacc2, h3⟩ := Eff.andThen_result_ok _ _ _ h2
        obtain ⟨gen, hgen, hgenall⟩ := forEachMatched_resolves env d ps acc acc2 hacc2
        obtain ⟨hvalid, ops, hops, hall⟩ := ih acc2 h3
        have hglob : env.globby d.src (globOptions rest d) = .ok ps := by
          cases hg : env.globby d.src (globOptions rest d) with
          | error m => simp [Eff.call, hg, Except.mapError] at hps
          | ok ps2 =>
            simp only [Eff.call, hg, Except.mapError, Except.ok.injEq] at hps
            rw [hps]
        have hmatched : matchedPaths rest env d = ps := by simp [matchedPaths, hglob]
        refine ⟨?_, gen ++ ops, by rw [hops, hgen, List.append_assoc], ?_⟩
        · intro t ht
          rcases List.mem_cons.1 ht with rfl | ht
          · exact hi
          · exact hvalid t ht
        · simp only [allTriples, descriptors, List.flatMap_cons, descriptorTriples, hmatched]
          exact List.rel_append hgenall hall

theorem length_triples (d : Descriptor) (ps : List String) (xs : List JsVal) :
    (ps.flatMap fun p => xs.map fun dst => (d, p, dst)).length = ps.length * xs.length := by
  induction ps with
  | nil => simp
  | cons p more ih =>
    rw [List.flatMap_cons, List.length_append, ih, List.length_map, List.length_cons]
    ring

theorem length_allTriples (rest : Options) (env : Env) (ts : List Target) :
    (allTriples rest env ts).length
      = ((descriptors ts).map fun d =>
          (matchedPaths rest env d).length * (destinationList d.dest).length).sum := by
  unfold allTriples
  induction descriptors ts with
  | nil => rfl
  | cons d more ih =>
    rw [List.flatMap_cons, List.length_append, ih, List.map_cons, List.sum_cons]
    simp only [descriptorTriples, length_triples]

/-- The calls that execute a list of operations are one call per operation,
in order. -/
theorem writeEvents_per_operation (env : Env) (rest : Options) (ops : List CopyTarget) :
    List.Forall₂ (fun ev op => ∃ o, ev = writeEvent o op) (writeEvents env rest ops) ops := by
  induction ops generalizing rest with
  | nil => exact List.Forall₂.nil
  | cons op more ih => exact List.Forall₂.cons ⟨rest, rfl⟩ (ih _)

/-- C1: a non-skipped invocation that completes met valid targets only, and
its calls of `fs.copy` and `fs.outputFile` are, in order, the executions of
the operations resolved for the (descriptor, matched path, destination
directory) triples, listed descriptor order first, matched-path order second,
destination-list order third, one call per triple, each with the object
`restPluginOptions` as the calls before it left it.  Their number is the sum
over the descriptors of matched paths times destinations: `N` per matched
path for a `dest` array of `N` entries, one for a single `dest`, none for a
descriptor without a match. -/
theorem operations_per_triple (cfg : Config) (env : Env) (st : HookState)
    (hrun : (cfg.copyOnce && st.copied) = false)
    (hok : (hook cfg env st).result = .ok ()) :
    (∀ t ∈ cfg.targets, invalid t = false) ∧
    ∃ ops, List.Forall₂ (ResolvesTo env) (allTriples st.rest env cfg.targets) ops ∧
      (hook cfg env st).trace.filter Event.isWrite = writeEvents env st.rest ops ∧
      List.Forall₂ (fun ev op => ∃ o, ev = writeEvent o op)
        ((hook cfg env st).trace.filter Event.isWrite) ops ∧
      ((hook cfg env st).trace.filter Event.isWrite).length
        = ((descriptors cfg.targets).map fun d =>
            (matchedPaths st.rest env d).length * (destinationList d.dest).length).sum := by
  obtain ⟨htr, hres, _, _⟩ := hook_run cfg env st hrun
  rw [hres] at hok
  cases hr : (resolveTargets st.rest env cfg.targets []).result with
  | error e =>
    rw [hookBody_of_resolve_error cfg env st.rest e hr] at hok
    cases hok
  | ok out =>
    rw [hookBody_of_resolve_ok cfg env st.rest out hr] at hok htr
    obtain ⟨hvalid, ops, hops, hall⟩ :=
      resolveTargets_resolves st.rest env cfg.targets [] out hr
    have hout2 : out = ops := by rw [hops]; rfl
    subst hout2
    have hwrites : (hook cfg env st).trace.filter Event.isWrite
        = writeEvents env st.rest out := by
      rw [htr]
      simp only [List.filter_append, resolveTargets_no_write, List.nil_append]
      exact (execute_writes cfg env st.rest out).1.2 hok
    have hper := writeEvents_per_operation env st.rest out
    refine ⟨hvalid, out, hall, hwrites, by rw [hwrites]; exact hper, ?_⟩
    rw [hwrites, hper.length_eq, ← hall.length_eq, length_allTriples]

/-- C1, witness: three descriptors on the sample filesystem: `assets/*`
(two matches) to `out` and `out2`, a pattern without a match, and `dir` to
`out`.  Five calls, in descriptor, matched-path and destination order. -/
theorem operations_per_triple_witness :
    (threeTargets.copyOnce && (HookState.initial threeTargets).copied) = false ∧
    (hook threeTargets sampleEnv (.initial threeTargets)).result = .ok () ∧
    (hook threeTargets sampleEnv (.initial threeTargets)).trace.filter Event.isWrite
      = [.copy "assets/a.txt" "out/a.txt" [],
         .copy "assets/a.txt" "out2/a.txt"
           [("clobber", .prim (.bool true)), ("overwrite", .prim (.bool true))],
         .copy "assets/b.txt" "out/b.txt"
           [("clobber", .prim (.bool true)), ("overwrite", .prim (.bool true))],
         .copy "assets/b.txt" "out2/b.txt"
           [("clobber", .prim (.bool true)), ("overwrite", .prim (.bool true))],
         .copy "dir" "out/dir"
           [("clobber", .prim (.bool true)), ("overwrite", .prim (.bool true))]] ∧
    ((hook threeTargets sampleEnv (.initial threeTargets)).trace.filter Event.isWrite).length
      = ((descriptors threeTargets.targets).map fun d =>
          (matchedPaths (HookState.initial threeTargets).rest sampleEnv d).length
            * (destinationList d.dest).length).sum ∧
    ((descriptors threeTargets.targets).map fun d =>
      (matchedPaths (HookState.initial threeTargets).rest sampleEnv d).length
        * (destinationList d.dest).length)
      = [2 * 2, 0 * 1, 1 * 1] :=
  ⟨rfl, by decide, by decide,
   (operations_per_triple threeTargets sampleEnv (.initial threeTargets) rfl
      (by decide)).2.choose_spec.2.2.2,
   by decide⟩

end RollupCopy
